import Mathlib

/-!
# Verification of a Go-Back-N ARQ transport layer

Shallow embedding of the repository's `src/packet.py` and
`src/layers/transport.py` (a Go-Back-N sender/receiver with a 16-bit
checksum), together with proofs checking the natural-language
specification against the code.

Conventions:
* Python `bytes` are modelled as `List Nat` (each entry a byte value);
* Python `int` fields are `Int` where negative sentinels occur
  (`seqnum`, `acknum`), `Nat` where the code only ever stores
  non-negative values;
* Python `assert` statements are modelled by returning
  `Except.error`; all other control flow is translated branch by
  branch from the source.
-/

namespace GBN

/-- The sender window size `N` (`self.send_window = 5` in
`TransportLayer.__init__`). -/
def send_window : Nat := 5

/-- The sequence-number space (`self.seqnum_space = 2 * self.send_window`). -/
def seqnum_space : Nat := 2 * send_window

/-- One step of the summation loop of `_ones_complement_16bit_sum`
(`packet.py` lines 13-14): add a 16-bit word keeping the low 16 bits,
then the (dead, because the total was already masked) carry fold. -/
def ones_step (total word : Nat) : Nat :=
  let t1 := (total + word) % 65536      -- total = (total + word) & 0xFFFF
  (t1 % 65536) + (t1 / 65536)           -- total = (total & 0xFFFF) + (total >> 16)

/-- The summation loop of `_ones_complement_16bit_sum`: combine two
bytes into a big-endian 16-bit word and accumulate with `ones_step`.
The input list always has even length (padding is done by the caller). -/
def ones_loop : List Nat → Nat → Nat
  | b1 :: b2 :: rest, total => ones_loop rest (ones_step total (b1 * 256 + b2))
  | _, total => total

/-- `_ones_complement_16bit_sum(data)` from `packet.py`: pad odd-length
data with a zero byte, run the summation loop, return the bitwise
complement of the (always < 2^16) total. -/
def ones_complement_16bit_sum (data : List Nat) : Nat :=
  let padded := if data.length % 2 = 1 then data ++ [0] else data
  let total := ones_loop padded 0
  65535 - total                         -- (~total) & 0xFFFF for total < 2^16

/-- Big-endian 4-byte encoding of a Python int as produced by
`int.to_bytes(4, "big", signed=True)` (and, for values in `[0, 2^32)`,
by `signed=False` as well): the value reduced modulo `2^32`, split into
four bytes. -/
def to_bytes_4 (n : Int) : List Nat :=
  let v := (n % 4294967296).toNat
  [v / 16777216 % 256, v / 65536 % 256, v / 256 % 256, v % 256]

/-- `Packet` from `packet.py`: payload bytes, sequence number,
acknowledgement number and the stored checksum. -/
structure Packet where
  data : List Nat
  seqnum : Int
  acknum : Int
  checksum : Nat
deriving DecidableEq, Repr

/-- `Packet.compute_checksum(seqnum, acknum, payload)`: checksum over
the 12-byte big-endian header (4B seqnum, 4B acknum, 4B payload
length) followed by the payload. -/
def compute_checksum (seqnum acknum : Int) (payload : List Nat) : Nat :=
  ones_complement_16bit_sum
    (to_bytes_4 seqnum ++ to_bytes_4 acknum ++ to_bytes_4 (payload.length : Int) ++ payload)

/-- `Packet.is_corrupt`: true iff the recomputed checksum differs from
the stored one. -/
def Packet.is_corrupt (p : Packet) : Bool :=
  p.checksum != compute_checksum p.seqnum p.acknum p.data

/-- `Packet.make_data(seqnum, payload)`: a DATA packet; `acknum = -1`
marks it as data. -/
def make_data (seqnum : Int) (payload : List Nat) : Packet :=
  { data := payload, seqnum := seqnum, acknum := -1,
    checksum := compute_checksum seqnum (-1) payload }

/-- `Packet.make_ack(acknum)`: an ACK packet with `seqnum = 0` and an
empty payload. -/
def make_ack (acknum : Int) : Packet :=
  { data := [], seqnum := 0, acknum := acknum,
    checksum := compute_checksum 0 acknum [] }

/-! ## Transport layer state and helpers -/

/-- Python `dict` keyed by sequence number, modelled as an association
list in insertion order (Python 3 dicts preserve insertion order). -/
def dict_get (d : List (Nat × Packet)) (k : Nat) : Option Packet :=
  (d.find? (fun e => e.1 == k)).map (fun e => e.2)

/-- `d[k] = v`: replace in place if the key is present, else append. -/
def dict_set (d : List (Nat × Packet)) (k : Nat) (v : Packet) : List (Nat × Packet) :=
  if d.any (fun e => e.1 == k) then d.map (fun e => if e.1 == k then (k, v) else e)
  else d ++ [(k, v)]

/-- `d.pop(k, None)`: drop the entry with key `k` if present. -/
def dict_pop (d : List (Nat × Packet)) (k : Nat) : List (Nat × Packet) :=
  d.filter (fun e => e.1 != k)

/-- Propagate an assertion failure (Python exception) out of a nested
call, else continue. -/
def tryBind {α β : Type} (r : Except String α) (f : α → Except String β) :
    Except String β :=
  match r with
  | .error e => .error e
  | .ok x => f x

/-- The mutable state of `TransportLayer` (`transport.py`).  The timer
object itself is abstracted to the `timer_active` flag the code keeps
in lockstep with it; the logger and layer references are omitted (the
network and application layers are modelled as the lists of packets
sent down and payloads delivered up returned by each operation). -/
@[ext]
structure TState where
  base : Nat
  next_seqnum : Nat
  send_buffer : List (Nat × Packet)
  app_queue : List (List Nat)
  expected_seqnum : Nat
  last_ack_send : Nat
  timer_active : Bool
  closed : Bool
  send : Nat
  retransmitted : Nat
  timeout_num : Nat
  duplicate_acks : Nat
  rx_corrupted_data : Nat
  rx_corrupted_acks : Nat
deriving DecidableEq, Repr

/-- `TransportLayer.__init__`. -/
def initState : TState :=
  { base := 0, next_seqnum := 0, send_buffer := [], app_queue := [],
    expected_seqnum := 0, last_ack_send := 0, timer_active := false,
    closed := false, send := 0, retransmitted := 0, timeout_num := 0,
    duplicate_acks := 0, rx_corrupted_data := 0, rx_corrupted_acks := 0 }

/-- `mod_seqnum(num)`: wrap into the sequence space. -/
def mod_seqnum (num : Nat) : Nat := num % seqnum_space

/-- `in_window(seqnum, base, N)`: `(seqnum - base) % seqnum_space < N`
(Python integer `%`, i.e. `Int.emod`). -/
def in_window (seqnum base N : Nat) : Bool :=
  decide ((((seqnum : Int) - (base : Int)) % (seqnum_space : Int)) < (N : Int))

/-- `ack_advances(acknum)`: `dist = (acknum - base) % seqnum_space`,
true iff `0 < dist <= send_window`. -/
def ack_advances (s : TState) (acknum : Nat) : Bool :=
  let dist : Int := (((acknum : Int) - (s.base : Int)) % (seqnum_space : Int))
  decide (0 < dist ∧ dist ≤ (send_window : Int))

/-- `from_app(binary_data)`: the sender entry point.  Python `assert`
failures are surfaced as `Except.error`.  Returns the new state and
the packets handed to the network layer. -/
def from_app (s : TState) (binary_data : List Nat) :
    Except String (TState × List Packet) :=
  if s.closed then .ok (s, [])
  else if send_window ≤ s.send_buffer.length then
    -- window full -> queue app data
    .ok ({ s with app_queue := s.app_queue ++ [binary_data] }, [])
  else if ¬ in_window s.next_seqnum s.base send_window then
    -- seqnum not inside window -> queue app data
    .ok ({ s with app_queue := s.app_queue ++ [binary_data] }, [])
  else if ¬ in_window s.next_seqnum s.base send_window then
    .error "assert in_window"
  else
    let old_next := s.next_seqnum
    let pkt := make_data (old_next : Int) binary_data
    if pkt.seqnum ≠ (old_next : Int) then .error "assert Packet seq mismatch"
    else
      let was_empty := s.send_buffer.length = 0
      let buffer := dict_set s.send_buffer old_next pkt
      -- start timer for oldest unACKed if nothing in flight before
      let timer := if was_empty ∧ s.timer_active = false then true else s.timer_active
      let s' : TState :=
        { s with send_buffer := buffer, timer_active := timer,
                 send := s.send + 1,
                 next_seqnum := mod_seqnum (old_next + 1) }
      let inflight_after := buffer.length
      if ¬ (inflight_after ≤ send_window) then .error "assert window bound"
      else if ¬ (s'.timer_active = decide (0 < inflight_after)) then .error "assert timer"
      else .ok (s', [pkt])

/-- The loop body of `drain_app_queue`, with explicit fuel (the Python
`while` loop pops one queued payload per iteration; on the states the
protocol can reach, the queue length strictly decreases, so
`app_queue.length` is enough fuel). -/
def drain_aux : Nat → TState → Except String (TState × List Packet)
  | 0, s => .ok (s, [])
  | fuel + 1, s =>
    match s.app_queue with
    | [] => .ok (s, [])
    | payload :: rest =>
      if in_window s.next_seqnum s.base send_window then
        tryBind (from_app { s with app_queue := rest } payload) (fun r =>
          tryBind (drain_aux fuel r.1) (fun r2 => .ok (r2.1, r.2 ++ r2.2)))
      else .ok (s, [])

/-- `drain_app_queue()`: send queued app data while the window allows. -/
def drain_app_queue (s : TState) : Except String (TState × List Packet) :=
  drain_aux s.app_queue.length s

/-- The sliding loop of the ACK-advance branch of `from_network`:
`while seq != acknum: send_buffer.pop(seq, None); seq = mod(seq+1)`.
The loop always terminates within `seqnum_space + 1` iterations, which
is the fuel `pop_range` supplies. -/
def pop_range_aux : Nat → List (Nat × Packet) → Nat → Nat → List (Nat × Packet)
  | 0, d, _, _ => d
  | fuel + 1, d, seq, target =>
    if seq = target then d
    else pop_range_aux fuel (dict_pop d seq) (mod_seqnum (seq + 1)) target

/-- Pop every buffered entry with sequence number in `[base, target)`
modulo the space. -/
def pop_range (d : List (Nat × Packet)) (base target : Nat) : List (Nat × Packet) :=
  pop_range_aux (seqnum_space + 1) d base target

/-- `from_network(packet)`: upcall for both ACKs and DATA.  Returns the
new state, the packets handed to the network layer, and the payloads
delivered to the application layer. -/
def from_network (s : TState) (packet : Packet) :
    Except String (TState × List Packet × List (List Nat)) :=
  if s.closed then .ok (s, [], [])
  else if 0 ≤ packet.acknum then
    -- ACK -> sender side
    if packet.is_corrupt then
      .ok ({ s with rx_corrupted_acks := s.rx_corrupted_acks + 1 }, [], [])
    else
      let acknum := ((packet.acknum % (seqnum_space : Int))).toNat
      if ack_advances s acknum then
        -- slide base up to acknum, with exclusive pop
        let buffer := pop_range s.send_buffer s.base acknum
        -- timer management: stop if no inflight, else restart for new oldest
        let s' : TState :=
          if buffer.isEmpty then
            { s with send_buffer := buffer, base := acknum,
                     next_seqnum := acknum, timer_active := false }
          else
            { s with send_buffer := buffer, base := acknum, timer_active := true }
        tryBind (drain_app_queue s') (fun r => .ok (r.1, r.2, []))
      else
        -- duplicate cumulative ACK
        .ok ({ s with duplicate_acks := s.duplicate_acks + 1 }, [], [])
  else
    -- DATA -> receiver side
    if packet.is_corrupt then
      -- corrupt data -> re-ACK expected_seqnum
      .ok ({ s with rx_corrupted_data := s.rx_corrupted_data + 1,
                    last_ack_send := s.expected_seqnum },
           [make_ack (s.expected_seqnum : Int)], [])
    else
      let seq := ((packet.seqnum % (seqnum_space : Int))).toNat
      if seq = s.expected_seqnum then
        -- deliver in-order, advance receiver state and ACK next expected
        let newexp := mod_seqnum (s.expected_seqnum + 1)
        .ok ({ s with expected_seqnum := newexp, last_ack_send := newexp },
             [make_ack (newexp : Int)], [packet.data])
      else
        -- out-of-order or duplicate -> drop and re-ACK last in-order
        .ok (s, [make_ack (s.last_ack_send : Int)], [])

/-- The retransmission loop of `on_timeout`: walk `seq` from `base` to
`next_seqnum` modulo the space, resending each buffered packet found.
Terminates within `seqnum_space + 1` iterations (the supplied fuel). -/
def rtx_aux : Nat → List (Nat × Packet) → Nat → Nat → List Packet
  | 0, _, _, _ => []
  | fuel + 1, d, seq, target =>
    if seq = target then []
    else
      match dict_get d seq with
      | some pkt => pkt :: rtx_aux fuel d (mod_seqnum (seq + 1)) target
      | none => rtx_aux fuel d (mod_seqnum (seq + 1)) target

/-- `on_timeout()`: the Go-Back-N timeout handler. -/
def on_timeout (s : TState) : Except String (TState × List Packet) :=
  if s.closed ∨ s.timer_active = false then .ok (s, [])
  else
    let out := rtx_aux (seqnum_space + 1) s.send_buffer s.base s.next_seqnum
    let s1 : TState :=
      { s with timeout_num := s.timeout_num + 1,
               retransmitted := s.retransmitted + out.length }
    if s1.closed then .ok (s1, out)
    else if ¬ s1.send_buffer.isEmpty then
      -- keep timer running for the oldest unACKed
      .ok ({ s1 with timer_active := true }, out)
    else
      -- nothing in flight: stop and try draining queued app data
      tryBind (drain_app_queue { s1 with timer_active := false }) (fun r =>
        .ok (r.1, out ++ r.2))

/-- Modelled from the spec: the reference 16-bit one's-complement
checksum of section 4.1 — "sum successive big-endian 16-bit words
modulo 2^16 with end-around carry folding, then bitwise-complement the
result".  It differs from the code's `ones_step` in that the running
total is not truncated before the end-around carry is folded in. -/
def ref_ones_step (total word : Nat) : Nat :=
  let t1 := total + word
  (t1 % 65536) + (t1 / 65536)

/-- Modelled from the spec: summation loop of the reference
one's-complement checksum. -/
def ref_ones_loop : List Nat → Nat → Nat
  | b1 :: b2 :: rest, total => ref_ones_loop rest (ref_ones_step total (b1 * 256 + b2))
  | _, total => total

/-- Modelled from the spec: the reference checksum of section 4.1 over
the same 12-byte header plus payload, padded to even length. -/
def ref_checksum (seqnum acknum : Int) (payload : List Nat) : Nat :=
  let data := to_bytes_4 seqnum ++ to_bytes_4 acknum ++
    to_bytes_4 (payload.length : Int) ++ payload
  let padded := if data.length % 2 = 1 then data ++ [0] else data
  65535 - ref_ones_loop padded 0

/-! ## Statement helpers

Declarative vocabulary used by the theorem statements: modular
distances/ranges as the spec describes them, and ghost-indexed
descriptions of the sliding window. -/

/-- `(n - b) mod seqnum_space` computed exactly as the code computes
distances (Python `%` on ints, i.e. `Int.emod`). -/
def mod_dist (b n : Nat) : Nat :=
  (((n : Int) - (b : Int)) % (seqnum_space : Int)).toNat

/-- The half-open modular interval `[b, n)`: the sequence numbers
`b, b+1, ..., n-1` taken modulo the sequence space, in ascending
(modular) order. -/
def mod_range (b n : Nat) : List Nat :=
  (List.range (mod_dist b n)).map (fun i => (b + i) % seqnum_space)

/-- The key list of a sender buffer holding the (ghost, unwrapped)
window `[B, X)`. -/
def ghost_keys (B X : Nat) : List Nat :=
  (List.range (X - B)).map (fun j => (B + j) % seqnum_space)

/-- The full contents of a sender buffer holding window `[B, X)` of
the submitted-payload sequence `sub`: entry `j` maps sequence number
`(B+j) mod space` to the exact DATA packet built for payload
`sub[B+j]`. -/
def window_list (sub : List (List Nat)) (B X : Nat) : List (Nat × Packet) :=
  (List.range (X - B)).map (fun j =>
    ((B + j) % seqnum_space,
     make_data (((B + j) % seqnum_space : Nat) : Int) (sub.getD (B + j) [])))

/-- Shape of a reachable sender: `base`/`next_seqnum` are the ghost
window bounds `B ≤ X ≤ B + N` reduced modulo the space, the buffer
keys are exactly the window `[B, X)` in ascending order, and the
timer is armed iff the window is non-empty. -/
structure Shape (s : TState) (B X : Nat) : Prop where
  closed_eq : s.closed = false
  base_eq : s.base = B % seqnum_space
  next_eq : s.next_seqnum = X % seqnum_space
  keys_eq : s.send_buffer.map Prod.fst = ghost_keys B X
  le : B ≤ X
  window : X ≤ B + send_window
  timer_eq : s.timer_active = decide (B < X)

/-- The single-transport invariant: sender shape for some ghost window
`[B, X)`, receiver cursor in range with `last_ack_send` tracking it,
and a non-empty pending queue only when the window is full. -/
def Inv (s : TState) : Prop :=
  ∃ B X, Shape s B X ∧
    s.expected_seqnum < seqnum_space ∧
    s.last_ack_send = s.expected_seqnum ∧
    (s.app_queue ≠ [] → X = B + send_window)

/-- States reachable from `initState` by the public operations
(`from_app`, `from_network`, `on_timeout`) that complete without an
assertion failure. -/
inductive Reachable : TState → Prop
  | init : Reachable initState
  | app {s s' : TState} {p : List Nat} {out : List Packet} :
      Reachable s → from_app s p = .ok (s', out) → Reachable s'
  | net {s s' : TState} {p : Packet} {out : List Packet} {dels : List (List Nat)} :
      Reachable s → from_network s p = .ok (s', out, dels) → Reachable s'
  | timeout {s s' : TState} {out : List Packet} :
      Reachable s → on_timeout s = .ok (s', out) → Reachable s'

/-- The buffer entries an advancing ACK `a` leaves behind: those whose
sequence number is not in `[base, a)` modulo the space. -/
def ack_remaining (s : TState) (a : Nat) : List (Nat × Packet) :=
  s.send_buffer.filter (fun e => decide (e.1 ∉ mod_range s.base a))

/-- The sequence number from which the post-ACK queue drain starts
assigning: the (reset) base if the ACK emptied the buffer, else the
unchanged `next_seqnum`. -/
def drain_start (s : TState) (a : Nat) : Nat :=
  if ack_remaining s a = [] then a else s.next_seqnum

/-- How many queued payloads the post-ACK drain sends: bounded by the
queue length and by the window room the ACK freed. -/
def drain_count (s : TState) (a : Nat) : Nat :=
  min s.app_queue.length (send_window - (ack_remaining s a).length)

/-- The DATA packets the post-ACK drain emits: the first
`drain_count` queued payloads, in FIFO order, with consecutive
sequence numbers from `drain_start`. -/
def drain_sent (s : TState) (a : Nat) : List Packet :=
  (List.range (drain_count s a)).map (fun j =>
    make_data ((mod_seqnum (drain_start s a + j) : Nat) : Int) (s.app_queue.getD j []))

/-- The buffer entries the post-ACK drain records for the packets of
`drain_sent`. -/
def drain_entries (s : TState) (a : Nat) : List (Nat × Packet) :=
  (List.range (drain_count s a)).map (fun j =>
    (mod_seqnum (drain_start s a + j),
     make_data ((mod_seqnum (drain_start s a + j) : Nat) : Int) (s.app_queue.getD j [])))

/-! ### Concrete states used as witnesses -/

/-- The state after `from_app(initState, b"A")`: one DATA segment with
sequence number 0 in flight, timer armed. -/
def stA : TState :=
  { initState with
    next_seqnum := 1,
    send_buffer := [(0, make_data 0 [65])],
    timer_active := true,
    send := 1 }

/-- A malformed segment: `acknum = -5` is neither the DATA sentinel
`-1` nor a valid cumulative-ACK value, yet its stored checksum is
consistent with its fields. -/
def c9bad : Packet :=
  { data := [], seqnum := 0, acknum := -5, checksum := compute_checksum 0 (-5) [] }

/-- The receiver state after the malformed segment `c9bad` has been
processed (and delivered!) as if it were in-order DATA. -/
def c9state : TState :=
  { initState with expected_seqnum := 1, last_ack_send := 1 }

/-! ## The two-stack system

Two transport instances (Alice sending, Bob receiving) connected by
two FIFO channels, as wired by `osi.py`/the network layer: the channel
may drop, corrupt or delay segments but never reorders and never
fabricates them.  The `det` flag restricts corruption to
checksum-detectable corruption (`det = true`) or allows arbitrary
corruption (`det = false`). -/

@[ext]
structure Sys where
  alice : TState
  bob : TState
  chanAB : List Packet
  chanBA : List Packet
  submitted : List (List Nat)
  delivered : List (List Nat)
  deliveredA : List (List Nat)
deriving DecidableEq, Repr

/-- The initial system: two fresh transports, empty channels. -/
def initSys : Sys :=
  { alice := initState, bob := initState, chanAB := [], chanBA := [],
    submitted := [], delivered := [], deliveredA := [] }

/-- One system event: an application submit at Alice, in-order
delivery of a channel head to the peer transport, a sender timeout, or
an adversarial drop/corruption of any in-flight segment.  Segments are
delivered in FIFO order (the channel never reorders) and corruption
replaces an in-flight segment in place (the channel never fabricates
new segments). -/
inductive Step (det : Bool) : Sys → Sys → Prop
  | submit {w : Sys} {p : List Nat} {a' : TState} {out : List Packet} :
      from_app w.alice p = .ok (a', out) →
      Step det w { w with alice := a', chanAB := w.chanAB ++ out,
                          submitted := w.submitted ++ [p] }
  | deliverAB {w : Sys} {pkt : Packet} {rest : List Packet} {b' : TState}
      {out : List Packet} {dels : List (List Nat)} :
      w.chanAB = pkt :: rest →
      from_network w.bob pkt = .ok (b', out, dels) →
      Step det w { w with bob := b', chanAB := rest,
                          chanBA := w.chanBA ++ out,
                          delivered := w.delivered ++ dels }
  | deliverBA {w : Sys} {pkt : Packet} {rest : List Packet} {a' : TState}
      {out : List Packet} {dels : List (List Nat)} :
      w.chanBA = pkt :: rest →
      from_network w.alice pkt = .ok (a', out, dels) →
      Step det w { w with alice := a', chanBA := rest,
                          chanAB := w.chanAB ++ out,
                          deliveredA := w.deliveredA ++ dels }
  | timeoutA {w : Sys} {a' : TState} {out : List Packet} :
      on_timeout w.alice = .ok (a', out) →
      Step det w { w with alice := a', chanAB := w.chanAB ++ out }
  | timeoutB {w : Sys} {b' : TState} {out : List Packet} :
      on_timeout w.bob = .ok (b', out) →
      Step det w { w with bob := b', chanBA := w.chanBA ++ out }
  | dropAB {w : Sys} (i : Nat) :
      i < w.chanAB.length → Step det w { w with chanAB := w.chanAB.eraseIdx i }
  | dropBA {w : Sys} (i : Nat) :
      i < w.chanBA.length → Step det w { w with chanBA := w.chanBA.eraseIdx i }
  | corruptAB {w : Sys} (i : Nat) (q : Packet) :
      i < w.chanAB.length → (det = true → q.is_corrupt = true) →
      Step det w { w with chanAB := w.chanAB.set i q }
  | corruptBA {w : Sys} (i : Nat) (q : Packet) :
      i < w.chanBA.length → (det = true → q.is_corrupt = true) →
      Step det w { w with chanBA := w.chanBA.set i q }

/-- Finitely many system events. -/
def Reaches (det : Bool) : Sys → Sys → Prop :=
  Relation.ReflTransGen (Step det)

/-- Invariant of the Bob-to-Alice channel: a FIFO sequence of
checksum-valid cumulative ACKs with non-decreasing ghost values in
`[lo, hi]`, interspersed with detectably-corrupt segments. -/
def BAinv : Nat → Nat → List Packet → Prop
  | _, _, [] => True
  | lo, hi, pkt :: rest =>
      (pkt.is_corrupt = true ∧ BAinv lo hi rest) ∨
      ∃ a, lo ≤ a ∧ a ≤ hi ∧ pkt = make_ack ((a % seqnum_space : Nat) : Int) ∧
        BAinv a hi rest

/-- Invariant of the Alice-to-Bob channel: a FIFO sequence of DATA
segments carrying submitted payloads at ghost indices `< X`, where
every entry bounds the indices of all later entries from below
(`later > earlier - N`, captured by the accumulator `lo`), plus
Alice's re-ACKs of her (never advancing) receive cursor and
detectably-corrupt segments. -/
def ABinv (sub : List (List Nat)) : Nat → Nat → List Packet → Prop
  | _, _, [] => True
  | lo, X, pkt :: rest =>
      (pkt.is_corrupt = true ∧ ABinv sub lo X rest) ∨
      (pkt = make_ack 0 ∧ ABinv sub lo X rest) ∨
      ∃ i, lo ≤ i ∧ i < X ∧
        pkt = make_data ((i % seqnum_space : Nat) : Int) (sub.getD i []) ∧
        ABinv sub (max lo (i + 1 - send_window)) X rest

/-- The global system invariant, with ghost (unwrapped) window bounds
`B ≤ E ≤ X`: Alice's sender holds window `[B, X)` of `submitted` with
the remainder queued FIFO, Bob has delivered exactly `submitted[0:E]`,
Bob's sender and Alice's receiver are untouched, and both channels
satisfy their FIFO invariants. -/
def SysInv (w : Sys) : Prop :=
  ∃ B X E lo,
    B ≤ E ∧ E ≤ X ∧ X ≤ B + send_window ∧ X ≤ w.submitted.length ∧
    lo ≤ B ∧ E ≤ lo + send_window ∧
    w.alice.base = B % seqnum_space ∧
    w.alice.next_seqnum = X % seqnum_space ∧
    w.alice.send_buffer = window_list w.submitted B X ∧
    w.alice.app_queue = w.submitted.drop X ∧
    (w.submitted.drop X ≠ [] → X = B + send_window) ∧
    w.alice.timer_active = decide (B < X) ∧
    w.alice.expected_seqnum = 0 ∧
    w.alice.last_ack_send = 0 ∧
    w.alice.closed = false ∧
    w.bob.base = 0 ∧ w.bob.next_seqnum = 0 ∧ w.bob.send_buffer = [] ∧
    w.bob.app_queue = [] ∧ w.bob.timer_active = false ∧ w.bob.closed = false ∧
    w.bob.expected_seqnum = E % seqnum_space ∧
    w.bob.last_ack_send = E % seqnum_space ∧
    w.delivered = w.submitted.take E ∧
    w.deliveredA = [] ∧
    ABinv w.submitted lo X w.chanAB ∧
    BAinv B E w.chanBA

/-! ### Concrete executions of the two-stack system -/

/-- A corrupted copy of the DATA segment for payload `[1,0,0,0]` whose
payload bytes were altered in flight to `[0,0,1,0]`: both payloads
contribute the same 16-bit words to the checksum, so the stored
checksum still matches and the corruption is undetectable. -/
def cexPkt : Packet :=
  { data := [0, 0, 1, 0], seqnum := 0, acknum := -1,
    checksum := compute_checksum 0 (-1) [1, 0, 0, 0] }

/-- The system after Alice submits payload `[1,0,0,0]`. -/
def cexW1 : Sys :=
  { alice := { initState with
      next_seqnum := 1,
      send_buffer := [(0, make_data 0 [1, 0, 0, 0])],
      timer_active := true,
      send := 1 },
    bob := initState, chanAB := [make_data 0 [1, 0, 0, 0]], chanBA := [],
    submitted := [[1, 0, 0, 0]], delivered := [], deliveredA := [] }

/-- The system after the channel corrupts the in-flight segment to
`cexPkt` (same length, same checksum words). -/
def cexW2 : Sys := { cexW1 with chanAB := [cexPkt] }

/-- The system after Bob accepts the corrupted segment as in-order
DATA and hands the wrong payload to his application. -/
def cexW3 : Sys :=
  { cexW2 with
    bob := { initState with expected_seqnum := 1, last_ack_send := 1 },
    chanAB := [], chanBA := [make_ack 1], delivered := [[0, 0, 1, 0]] }

/-- The final, fully quiescent system of the undetectable-corruption
execution: every segment acknowledged, channels empty, sender idle —
yet the delivered sequence differs from the submitted one. -/
def cexW : Sys :=
  { cexW3 with
    alice := { initState with base := 1, next_seqnum := 1, send := 1 },
    chanBA := [] }

/-- A clean three-step execution delivering payload `[65]`: the system
after the submit. -/
def okW1 : Sys :=
  { alice := stA, bob := initState, chanAB := [make_data 0 [65]], chanBA := [],
    submitted := [[65]], delivered := [], deliveredA := [] }

/-- The clean execution after Bob delivers the segment and ACKs it. -/
def okW2 : Sys :=
  { okW1 with
    bob := { initState with expected_seqnum := 1, last_ack_send := 1 },
    chanAB := [], chanBA := [make_ack 1], delivered := [[65]] }

/-- The clean execution's final quiescent state: submitted and
delivered agree. -/
def okW : Sys :=
  { okW2 with
    alice := { initState with base := 1, next_seqnum := 1, send := 1 },
    chanBA := [] }

/-! ## Theorems -/

theorem seqnum_space_eq : seqnum_space = 10 := rfl

theorem send_window_eq : send_window = 5 := rfl

/-- A freshly built DATA packet passes its own checksum. -/
theorem make_data_not_corrupt (s : Int) (p : List Nat) :
    (make_data s p).is_corrupt = false := by
  simp [make_data, Packet.is_corrupt]

/-- A freshly built ACK packet passes its own checksum. -/
theorem make_ack_not_corrupt (a : Int) :
    (make_ack a).is_corrupt = false := by
  simp [make_ack, Packet.is_corrupt]

theorem make_data_seqnum (s : Int) (p : List Nat) : (make_data s p).seqnum = s := rfl

theorem make_data_acknum (s : Int) (p : List Nat) : (make_data s p).acknum = -1 := rfl

theorem make_data_data (s : Int) (p : List Nat) : (make_data s p).data = p := rfl

theorem make_ack_acknum (a : Int) : (make_ack a).acknum = a := rfl

/-! ### Ghost-window arithmetic -/

theorem ghost_keys_self (B : Nat) : ghost_keys B B = [] := by
  simp [ghost_keys]

theorem ghost_keys_nil_iff {B X : Nat} : ghost_keys B X = [] ↔ X - B = 0 := by
  simp [ghost_keys]

theorem ghost_keys_cons {B X : Nat} (h : B < X) :
    ghost_keys B X = (B % seqnum_space) :: ghost_keys (B + 1) X := by
  have hx : X - B = (X - (B + 1)) + 1 := by omega
  rw [ghost_keys, hx, List.range_succ_eq_map, List.map_cons, List.map_map, ghost_keys]
  congr 1
  apply List.map_congr_left
  intro i _
  have hi : B + (i + 1) = B + 1 + i := by omega
  simp only [Function.comp_apply, hi]

theorem ghost_keys_append {B X : Nat} (h : B ≤ X) :
    ghost_keys B (X + 1) = ghost_keys B X ++ [X % seqnum_space] := by
  have hx : X + 1 - B = (X - B) + 1 := by omega
  have hbx : B + (X - B) = X := by omega
  simp only [ghost_keys, hx, List.range_succ, List.map_append, List.map_cons, List.map_nil, hbx]

theorem ghost_keys_not_mem {B X : Nat} (h : X ≤ B + 9) :
    (X % seqnum_space) ∉ ghost_keys B X := by
  simp only [ghost_keys, seqnum_space, send_window, List.mem_map, List.mem_range, not_exists]
  intro j hj
  omega

theorem window_list_map_fst (sub : List (List Nat)) (B X : Nat) :
    (window_list sub B X).map Prod.fst = ghost_keys B X := by
  simp [window_list, ghost_keys, List.map_map, Function.comp_def]

theorem window_list_self (sub : List (List Nat)) (B : Nat) :
    window_list sub B B = [] := by
  simp [window_list]

theorem window_list_nil_iff {sub : List (List Nat)} {B X : Nat} :
    window_list sub B X = [] ↔ X - B = 0 := by
  simp [window_list]

theorem window_list_length (sub : List (List Nat)) (B X : Nat) :
    (window_list sub B X).length = X - B := by
  simp [window_list]

theorem window_list_cons {sub : List (List Nat)} {B X : Nat} (h : B < X) :
    window_list sub B X =
      (B % seqnum_space, make_data ((B % seqnum_space : Nat) : Int) (sub.getD B [])) ::
        window_list sub (B + 1) X := by
  have hx : X - B = (X - (B + 1)) + 1 := by omega
  rw [window_list, hx, List.range_succ_eq_map, List.map_cons, List.map_map, window_list]
  congr 1
  apply List.map_congr_left
  intro i _
  have hi : B + (i + 1) = B + 1 + i := by omega
  simp only [Function.comp_apply, hi]

theorem window_list_append {sub : List (List Nat)} {B X : Nat} (h : B ≤ X) :
    window_list sub B (X + 1) =
      window_list sub B X ++
        [(X % seqnum_space, make_data ((X % seqnum_space : Nat) : Int) (sub.getD X []))] := by
  have hx : X + 1 - B = (X - B) + 1 := by omega
  simp only [window_list, hx, List.range_succ, List.map_append, List.map_cons, List.map_nil]
  have : B + (X - B) = X := by omega
  rw [this]

theorem window_list_drop {sub : List (List Nat)} {B X : Nat} (d : Nat) (h : d ≤ X - B) :
    (window_list sub B X).drop d = window_list sub (B + d) X := by
  induction d generalizing B with
  | zero => simp
  | succ n ih =>
    have hb : B < X := by omega
    rw [window_list_cons hb]
    have : B + (n + 1) = (B + 1) + n := by omega
    rw [this, List.drop_succ_cons, ih (by omega)]

theorem window_list_stable {sub : List (List Nat)} {B X : Nat} (p : List Nat)
    (h : X ≤ sub.length) :
    window_list (sub ++ [p]) B X = window_list sub B X := by
  apply List.map_congr_left
  intro j hj
  simp only [List.mem_range] at hj
  have : B + j < sub.length := by omega
  rw [List.getD_append _ _ _ _ this]

/-! ### Dictionary operations on shaped buffers -/

theorem dict_get_cons_self (k : Nat) (v : Packet) (t : List (Nat × Packet)) :
    dict_get ((k, v) :: t) k = some v := by
  simp [dict_get, List.find?]

theorem dict_get_cons_ne {k k0 : Nat} (h : k0 ≠ k) (v : Packet) (t : List (Nat × Packet)) :
    dict_get ((k0, v) :: t) k = dict_get t k := by
  simp only [dict_get, List.find?]
  have : ((k0, v).1 == k) = false := by simpa using h
  simp [this]

theorem dict_pop_cons_self {k : Nat} {v : Packet} {t : List (Nat × Packet)}
    (ht : ∀ e ∈ t, e.1 ≠ k) : dict_pop ((k, v) :: t) k = t := by
  simp only [dict_pop, List.filter_cons, bne_self_eq_false, Bool.false_eq_true, if_false]
  exact List.filter_eq_self.mpr (fun e he => by simpa using ht e he)

theorem dict_set_of_not_mem {d : List (Nat × Packet)} {k : Nat} (v : Packet)
    (h : ∀ e ∈ d, e.1 ≠ k) : dict_set d k v = d ++ [(k, v)] := by
  unfold dict_set
  rw [if_neg]
  simp only [List.any_eq_true, beq_iff_eq, not_exists]
  intro e he
  exact h e he.1 he.2

theorem buffer_length_of_keys {s : TState} {B X : Nat}
    (h : s.send_buffer.map Prod.fst = ghost_keys B X) :
    s.send_buffer.length = X - B := by
  have h2 := congrArg List.length h
  simpa [ghost_keys] using h2

/-! ### Window arithmetic -/

theorem in_window_ghost {B X : Nat} (h1 : B ≤ X) (h2 : X ≤ B + send_window) :
    in_window (X % seqnum_space) (B % seqnum_space) send_window =
      decide (X < B + send_window) := by
  have h2' : X ≤ B + 5 := h2
  simp only [in_window, seqnum_space, send_window]
  rw [decide_eq_decide]
  omega

theorem mod_seqnum_shift (X : Nat) :
    mod_seqnum (X % seqnum_space + 1) = (X + 1) % seqnum_space := by
  simp only [mod_seqnum, seqnum_space, send_window]
  omega

theorem ack_ghost (B a : Nat) (ha : a < seqnum_space) :
    ∃ A, A % seqnum_space = a ∧ B ≤ A ∧ A < B + seqnum_space := by
  have ha' : a < 10 := ha
  refine ⟨B + ((a + 10 - B % 10) % 10), ?_, ?_, ?_⟩
  · show _ % seqnum_space = a
    simp only [seqnum_space, send_window]
    omega
  · omega
  · show _ < B + seqnum_space
    simp only [seqnum_space, send_window]
    omega

theorem ack_advances_ghost {s : TState} {B A : Nat} (hb : s.base = B % seqnum_space)
    (hBA : B ≤ A) (ha : A < B + seqnum_space) :
    ack_advances s (A % seqnum_space) = decide (0 < A - B ∧ A - B ≤ send_window) := by
  have ha' : A < B + 10 := ha
  simp only [ack_advances, hb, seqnum_space, send_window]
  rw [decide_eq_decide]
  omega

/-! ### Specification of `from_app` -/

theorem from_app_closed (s : TState) (payload : List Nat) (hc : s.closed = true) :
    from_app s payload = .ok (s, []) := by
  simp [from_app, hc]

theorem from_app_queue_spec (s : TState) (payload : List Nat)
    (hc : s.closed = false)
    (hfull : send_window ≤ s.send_buffer.length ∨
      in_window s.next_seqnum s.base send_window = false) :
    from_app s payload = .ok ({ s with app_queue := s.app_queue ++ [payload] }, []) := by
  rcases hfull with hfull | hfull
  · simp [from_app, hc, hfull]
  · unfold from_app
    rw [hc]
    simp only [Bool.false_eq_true, if_false, hfull]
    by_cases hlen : send_window ≤ s.send_buffer.length <;> simp [hlen]

theorem from_app_send_spec {s : TState} {B X : Nat} (payload : List Nat)
    (hs : Shape s B X) (hlt : X < B + send_window) :
    from_app s payload = .ok
      ({ s with
          send_buffer := s.send_buffer ++
            [(X % seqnum_space, make_data ((X % seqnum_space : Nat) : Int) payload)],
          timer_active := true,
          send := s.send + 1,
          next_seqnum := (X + 1) % seqnum_space },
        [make_data ((X % seqnum_space : Nat) : Int) payload]) := by
  have hlen : s.send_buffer.length = X - B := buffer_length_of_keys hs.keys_eq
  have hle : B ≤ X := hs.le
  have hXB : X - B < send_window := by omega
  have hw9 : X ≤ B + 9 := by
    have h2' : X ≤ B + 5 := hs.window
    omega
  have hnotmem : ∀ e ∈ s.send_buffer, e.1 ≠ X % seqnum_space := by
    intro e he hk
    have hmem : e.1 ∈ ghost_keys B X := by
      rw [← hs.keys_eq]
      exact List.mem_map_of_mem Prod.fst he
    rw [hk] at hmem
    exact ghost_keys_not_mem hw9 hmem
  have hnot5 : ¬ (send_window ≤ s.send_buffer.length) := by
    rw [hlen]
    omega
  have htrue : in_window (X % seqnum_space) (B % seqnum_space) send_window = true := by
    rw [in_window_ghost hs.le hs.window]
    simpa using hlt
  have hset : dict_set s.send_buffer (X % seqnum_space)
      (make_data ((X % seqnum_space : Nat) : Int) payload) =
      s.send_buffer ++ [(X % seqnum_space, make_data ((X % seqnum_space : Nat) : Int) payload)] :=
    dict_set_of_not_mem _ hnotmem
  have htimer :
      (if s.send_buffer.length = 0 ∧ s.timer_active = false then true else s.timer_active) =
        true := by
    rw [hs.timer_eq, hlen]
    by_cases hbx : B < X
    · have hne0 : ¬ (X - B = 0) := by omega
      simp [hne0, hbx]
    · have hbe : X - B = 0 := by omega
      simp [hbe, hbx]
  unfold from_app
  rw [hs.closed_eq, hs.next_eq, hs.base_eq]
  simp only [Bool.false_eq_true, if_false, htrue, not_true_eq_false, if_neg hnot5,
    eq_self_iff_true]
  rw [if_neg (by simp [make_data_seqnum] :
    ¬ ((make_data ((X % seqnum_space : Nat) : Int) payload).seqnum ≠
      ((X % seqnum_space : Nat) : Int)))]
  rw [hset, htimer]
  have hlen2 : (s.send_buffer ++
      [(X % seqnum_space, make_data ((X % seqnum_space : Nat) : Int) payload)]).length =
      (X - B) + 1 := by
    simp [hlen]
  rw [if_neg (by rw [hlen2]; exact not_not_intro (by omega))]
  rw [if_neg (by rw [hlen2]; simp)]
  rw [mod_seqnum_shift]

/-! ### Specification of `drain_app_queue` -/

theorem tryBind_ok {α β : Type} (x : α) (f : α → Except String β) :
    tryBind (.ok x) f = f x := rfl

theorem shape_update_queue {s : TState} {B X : Nat} (hs : Shape s B X) (q : List (List Nat)) :
    Shape { s with app_queue := q } B X :=
  { closed_eq := hs.closed_eq, base_eq := hs.base_eq, next_eq := hs.next_eq,
    keys_eq := hs.keys_eq, le := hs.le, window := hs.window, timer_eq := hs.timer_eq }

theorem range_map_cons {α : Type} (k : Nat) (f : Nat → α) :
    (List.range (k + 1)).map f = f 0 :: (List.range k).map (fun j => f (j + 1)) := by
  rw [List.range_succ_eq_map, List.map_cons, List.map_map]
  rfl

theorem drain_aux_succ_cons {fuel : Nat} {s : TState} {p : List Nat} {rest : List (List Nat)}
    (hq : s.app_queue = p :: rest) :
    drain_aux (fuel + 1) s =
      if in_window s.next_seqnum s.base send_window then
        tryBind (from_app { s with app_queue := rest } p) (fun r =>
          tryBind (drain_aux fuel r.1) (fun r2 => .ok (r2.1, r.2 ++ r2.2)))
      else .ok (s, []) := by
  simp only [drain_aux]
  rw [hq]

/-- Full characterisation of the drain loop on a shaped sender: it
sends the longest queue prefix that fits in the window, FIFO, with
consecutive sequence numbers from `next_seqnum`. -/
theorem drain_aux_spec (q : List (List Nat)) :
    ∀ (s : TState) (B X : Nat), Shape s B X → s.app_queue = q →
    drain_aux q.length s = .ok
      ({ s with
          send_buffer := s.send_buffer ++
            (List.range (min q.length (B + send_window - X))).map (fun j =>
              ((X + j) % seqnum_space,
               make_data (((X + j) % seqnum_space : Nat) : Int) (q.getD j []))),
          app_queue := q.drop (min q.length (B + send_window - X)),
          next_seqnum := (X + min q.length (B + send_window - X)) % seqnum_space,
          timer_active := decide (B < X + min q.length (B + send_window - X)),
          send := s.send + min q.length (B + send_window - X) },
        (List.range (min q.length (B + send_window - X))).map (fun j =>
          make_data (((X + j) % seqnum_space : Nat) : Int) (q.getD j []))) := by
  induction q with
  | nil =>
    intro s B X hs hq
    simp only [List.length_nil, Nat.zero_min, List.range_zero, List.map_nil,
      List.append_nil, List.drop_zero, Nat.add_zero, drain_aux]
    refine congrArg Except.ok (Prod.ext ?_ rfl)
    ext1 <;> simp [← hq, hs.next_eq, hs.timer_eq]
  | cons p rest ih =>
    intro s B X hs hq
    have hg : in_window s.next_seqnum s.base send_window = decide (X < B + send_window) := by
      rw [hs.next_eq, hs.base_eq, in_window_ghost hs.le hs.window]
    simp only [List.length_cons]
    rw [drain_aux_succ_cons hq, hg]
    by_cases hlt : X < B + send_window
    · have h5 : X < B + 5 := hlt
      rw [if_pos (by simpa using hlt)]
      rw [from_app_send_spec p (shape_update_queue hs rest) hlt, tryBind_ok]
      have hle : B ≤ X := hs.le
      have hs2 : Shape { s with
          app_queue := rest,
          send_buffer := s.send_buffer ++
            [(X % seqnum_space, make_data ((X % seqnum_space : Nat) : Int) p)],
          timer_active := true,
          send := s.send + 1,
          next_seqnum := (X + 1) % seqnum_space } B (X + 1) :=
        { closed_eq := hs.closed_eq, base_eq := hs.base_eq, next_eq := rfl,
          keys_eq := by
            show (s.send_buffer ++ _).map Prod.fst = _
            simp only [List.map_append, hs.keys_eq, List.map_cons, List.map_nil]
            exact (ghost_keys_append hs.le).symm,
          le := by omega,
          window := by
            have h5' : send_window = 5 := rfl
            omega,
          timer_eq := by
            show true = decide (B < X + 1)
            have : B < X + 1 := by omega
            simp [this] }
      rw [ih _ B (X + 1) hs2 rfl, tryBind_ok]
      have hk : min (rest.length + 1) (B + send_window - X) =
          min rest.length (B + send_window - (X + 1)) + 1 := by
        have h5' : send_window = 5 := rfl
        omega
      simp only [hk]
      have hm : ∀ a m : Nat, a + 1 + m = a + (m + 1) := fun a m => by omega
      refine congrArg Except.ok (Prod.ext ?_ ?_)
      · ext1 <;>
          simp only [List.drop_succ_cons, List.append_assoc, range_map_cons,
            List.getD_cons_zero, List.getD_cons_succ, Nat.add_zero, List.cons_append,
            List.nil_append, hm]
      · simp only [range_map_cons, Nat.add_zero, List.getD_cons_zero, List.getD_cons_succ,
          List.cons_append, List.nil_append, hm]
    · have hk0 : B + send_window - X = 0 := by
        have h5 : ¬ X < B + 5 := hlt
        omega
      rw [if_neg (by simpa using hlt)]
      simp only [hk0, Nat.min_zero, List.range_zero, List.map_nil, List.append_nil,
        List.drop_zero, Nat.add_zero]
      refine congrArg Except.ok (Prod.ext ?_ rfl)
      ext1 <;> simp [← hq, hs.next_eq, hs.timer_eq]

/-- `drain_app_queue` on a shaped sender. -/
theorem drain_app_queue_spec {s : TState} {B X : Nat} (hs : Shape s B X) :
    drain_app_queue s = .ok
      ({ s with
          send_buffer := s.send_buffer ++
            (List.range (min s.app_queue.length (B + send_window - X))).map (fun j =>
              ((X + j) % seqnum_space,
               make_data (((X + j) % seqnum_space : Nat) : Int) (s.app_queue.getD j []))),
          app_queue := s.app_queue.drop (min s.app_queue.length (B + send_window - X)),
          next_seqnum := (X + min s.app_queue.length (B + send_window - X)) % seqnum_space,
          timer_active := decide (B < X + min s.app_queue.length (B + send_window - X)),
          send := s.send + min s.app_queue.length (B + send_window - X) },
        (List.range (min s.app_queue.length (B + send_window - X))).map (fun j =>
          make_data (((X + j) % seqnum_space : Nat) : Int) (s.app_queue.getD j []))) :=
  drain_aux_spec s.app_queue s B X hs rfl

/-! ### Specification of the ACK sliding loop and the retransmission loop -/

theorem ghost_keys_not_mem_base {B X : Nat} (h : X ≤ B + 9) :
    (B % seqnum_space) ∉ ghost_keys (B + 1) X := by
  simp only [ghost_keys, seqnum_space, send_window, List.mem_map, List.mem_range, not_exists]
  intro j hj
  omega

theorem pop_range_aux_spec (d : Nat) :
    ∀ (fuel : Nat) (buf : List (Nat × Packet)) (B X : Nat),
      d ≤ 5 → X ≤ B + 5 → buf.map Prod.fst = ghost_keys B X → d + 1 ≤ fuel →
      pop_range_aux fuel buf (B % seqnum_space) ((B + d) % seqnum_space) =
        buf.drop (min d (X - B)) := by
  induction d with
  | zero =>
    intro fuel buf B X _ _ _ hfuel
    match fuel, hfuel with
    | fuel + 1, _ =>
      simp [pop_range_aux]
  | succ n ihd =>
    intro fuel buf B X hd hw hkeys hfuel
    match fuel, hfuel with
    | fuel + 1, hfuel =>
      have hne : ¬ (B % seqnum_space = (B + (n + 1)) % seqnum_space) := by
        simp only [seqnum_space, send_window]
        omega
      simp only [pop_range_aux, if_neg hne]
      by_cases hbx : B < X
      · obtain ⟨e, tail, rfl⟩ : ∃ e tail, buf = e :: tail := by
          cases buf with
          | nil =>
            rw [ghost_keys_cons hbx] at hkeys
            simp at hkeys
          | cons e tail => exact ⟨e, tail, rfl⟩
        rw [ghost_keys_cons hbx] at hkeys
        simp only [List.map_cons, List.cons.injEq] at hkeys
        obtain ⟨hk, htail⟩ := hkeys
        obtain ⟨k, v⟩ := e
        simp only at hk
        subst hk
        have htne : ∀ e2 ∈ tail, e2.1 ≠ B % seqnum_space := by
          intro e2 he2 hcontra
          have : e2.1 ∈ ghost_keys (B + 1) X := by
            rw [← htail]
            exact List.mem_map_of_mem Prod.fst he2
          rw [hcontra] at this
          exact ghost_keys_not_mem_base (by omega) this
        rw [dict_pop_cons_self htne]
        have hsh : (B + (n + 1)) % seqnum_space = (B + 1 + n) % seqnum_space := by
          congr 1
          omega
        have hms : mod_seqnum (B % seqnum_space + 1) = (B + 1) % seqnum_space :=
          mod_seqnum_shift B
        rw [hsh, hms, ihd fuel tail (B + 1) X (by omega) (by omega) htail (by omega)]
        have hmin : min (n + 1) (X - B) = min n (X - (B + 1)) + 1 := by omega
        rw [hmin, List.drop_succ_cons]
      · have hbuf : buf = [] := by
          have h0 : X - B = 0 := by omega
          rw [ghost_keys_nil_iff.mpr h0] at hkeys
          exact List.map_eq_nil_iff.mp hkeys
        subst hbuf
        have hsh : (B + (n + 1)) % seqnum_space = (B + 1 + n) % seqnum_space := by
          congr 1
          omega
        have hms : mod_seqnum (B % seqnum_space + 1) = (B + 1) % seqnum_space :=
          mod_seqnum_shift B
        rw [hsh, hms, dict_pop]
        simp only [List.filter_nil]
        rw [ihd fuel [] (B + 1) (B + 1) (by omega) (by omega) (by simp [ghost_keys_self])
          (by omega)]
        simp

theorem pop_range_spec {buf : List (Nat × Packet)} {B X : Nat} (d : Nat)
    (hd : d ≤ 5) (hw : X ≤ B + 5) (hkeys : buf.map Prod.fst = ghost_keys B X) :
    pop_range buf (B % seqnum_space) ((B + d) % seqnum_space) = buf.drop (min d (X - B)) :=
  pop_range_aux_spec d (seqnum_space + 1) buf B X hd hw hkeys
    (by
      have h10 : seqnum_space = 10 := rfl
      omega)

theorem rtx_aux_skip (d : Nat) :
    ∀ (fuel : Nat) (k0 : Nat) (v0 : Packet) (tail : List (Nat × Packet)) (C : Nat),
      d ≤ 9 → d + 1 ≤ fuel → (∀ t, t < d → (C + t) % seqnum_space ≠ k0) →
      rtx_aux fuel ((k0, v0) :: tail) (C % seqnum_space) ((C + d) % seqnum_space) =
        rtx_aux fuel tail (C % seqnum_space) ((C + d) % seqnum_space) := by
  induction d with
  | zero =>
    intro fuel k0 v0 tail C _ hfuel _
    match fuel, hfuel with
    | fuel + 1, _ =>
      simp [rtx_aux]
  | succ n ihd =>
    intro fuel k0 v0 tail C hd hfuel hmiss
    match fuel, hfuel with
    | fuel + 1, hfuel =>
      have hne : ¬ (C % seqnum_space = (C + (n + 1)) % seqnum_space) := by
        simp only [seqnum_space, send_window]
        omega
      have hk0 : C % seqnum_space ≠ k0 := by
        have := hmiss 0 (by omega)
        simpa using this
      simp only [rtx_aux, if_neg hne]
      rw [dict_get_cons_ne (Ne.symm hk0)]
      have hsh : (C + (n + 1)) % seqnum_space = (C + 1 + n) % seqnum_space := by
        congr 1
        omega
      have hms : mod_seqnum (C % seqnum_space + 1) = (C + 1) % seqnum_space :=
        mod_seqnum_shift C
      have hmiss' : ∀ t, t < n → (C + 1 + t) % seqnum_space ≠ k0 := by
        intro t ht
        have hm2 := hmiss (t + 1) (by omega)
        have harr : C + (t + 1) = C + 1 + t := by omega
        rwa [harr] at hm2
      rw [hsh, hms]
      simp only [ihd fuel k0 v0 tail (C + 1) (by omega) (by omega) hmiss']

theorem rtx_aux_spec (n : Nat) :
    ∀ (buf : List (Nat × Packet)) (B X : Nat),
      X - B = n → B ≤ X → X ≤ B + 5 → buf.map Prod.fst = ghost_keys B X →
      ∀ fuel, n + 1 ≤ fuel →
      rtx_aux fuel buf (B % seqnum_space) (X % seqnum_space) = buf.map Prod.snd := by
  induction n with
  | zero =>
    intro buf B X hn hle hw hkeys fuel hfuel
    have hbx : B = X := by omega
    subst hbx
    have hbuf : buf = [] := by
      cases buf with
      | nil => rfl
      | cons e tail =>
        rw [ghost_keys_self] at hkeys
        simp at hkeys
    subst hbuf
    match fuel, hfuel with
    | fuel + 1, _ => simp [rtx_aux]
  | succ n ihn =>
    intro buf B X hn hle hw hkeys fuel hfuel
    have hbx : B < X := by omega
    obtain ⟨e, tail, rfl⟩ : ∃ e tail, buf = e :: tail := by
      cases buf with
      | nil =>
        rw [ghost_keys_cons hbx] at hkeys
        simp at hkeys
      | cons e tail => exact ⟨e, tail, rfl⟩
    rw [ghost_keys_cons hbx] at hkeys
    simp only [List.map_cons, List.cons.injEq] at hkeys
    obtain ⟨hk, htail⟩ := hkeys
    obtain ⟨k, v⟩ := e
    simp only at hk
    subst hk
    match fuel, hfuel with
    | fuel + 1, hfuel =>
      have hne : ¬ (B % seqnum_space = X % seqnum_space) := by
        simp only [seqnum_space, send_window]
        omega
      simp only [rtx_aux, if_neg hne, dict_get_cons_self]
      have hms : mod_seqnum (B % seqnum_space + 1) = (B + 1) % seqnum_space :=
        mod_seqnum_shift B
      have hX : X % seqnum_space = (B + 1 + n) % seqnum_space := by
        congr 1
        omega
      rw [hms, hX, rtx_aux_skip n fuel (B % seqnum_space) v tail (B + 1) (by omega)
        (by omega) (by
          intro t ht
          simp only [seqnum_space, send_window]
          omega)]
      rw [← hX]
      rw [ihn tail (B + 1) X (by omega) (by omega) (by omega) htail fuel (by omega)]
      simp

/-! ### Specification of `from_network` -/

theorem ghost_keys_drop {B X : Nat} (d : Nat) (h : d ≤ X - B) :
    (ghost_keys B X).drop d = ghost_keys (B + d) X := by
  induction d generalizing B with
  | zero => simp
  | succ n ih =>
    have hb : B < X := by omega
    rw [ghost_keys_cons hb]
    have harr : B + (n + 1) = (B + 1) + n := by omega
    rw [harr, List.drop_succ_cons, ih (by omega)]

theorem from_network_closed {s : TState} (p : Packet) (hc : s.closed = true) :
    from_network s p = .ok (s, [], []) := by
  simp [from_network, hc]

theorem from_network_ack_corrupt {s : TState} {p : Packet} (hc : s.closed = false)
    (ha : 0 ≤ p.acknum) (hcor : p.is_corrupt = true) :
    from_network s p = .ok ({ s with rx_corrupted_acks := s.rx_corrupted_acks + 1 }, [], []) := by
  unfold from_network
  rw [hc]
  simp only [Bool.false_eq_true, if_false]
  rw [if_pos ha, hcor]
  simp

theorem from_network_ack_dup {s : TState} {p : Packet} (hc : s.closed = false)
    (ha : 0 ≤ p.acknum) (hcor : p.is_corrupt = false)
    (hdup : ack_advances s ((p.acknum % (seqnum_space : Int)).toNat) = false) :
    from_network s p = .ok ({ s with duplicate_acks := s.duplicate_acks + 1 }, [], []) := by
  unfold from_network
  rw [hc]
  simp only [Bool.false_eq_true, if_false]
  rw [if_pos ha, hcor]
  simp only [Bool.false_eq_true, if_false]
  rw [hdup]
  simp

theorem from_network_data_corrupt {s : TState} {p : Packet} (hc : s.closed = false)
    (hd : p.acknum < 0) (hcor : p.is_corrupt = true) :
    from_network s p = .ok
      ({ s with rx_corrupted_data := s.rx_corrupted_data + 1,
                last_ack_send := s.expected_seqnum },
       [make_ack ((s.expected_seqnum : Nat) : Int)], []) := by
  unfold from_network
  rw [hc]
  simp only [Bool.false_eq_true, if_false]
  rw [if_neg (by omega : ¬ (0 ≤ p.acknum)), hcor]
  simp

theorem from_network_data_deliver {s : TState} {p : Packet} (hc : s.closed = false)
    (hd : p.acknum < 0) (hcor : p.is_corrupt = false)
    (hseq : (p.seqnum % (seqnum_space : Int)).toNat = s.expected_seqnum) :
    from_network s p = .ok
      ({ s with expected_seqnum := mod_seqnum (s.expected_seqnum + 1),
                last_ack_send := mod_seqnum (s.expected_seqnum + 1) },
       [make_ack ((mod_seqnum (s.expected_seqnum + 1) : Nat) : Int)], [p.data]) := by
  unfold from_network
  rw [hc]
  simp only [Bool.false_eq_true, if_false]
  rw [if_neg (by omega : ¬ (0 ≤ p.acknum)), hcor]
  simp only [Bool.false_eq_true, if_false]
  rw [hseq]
  simp

theorem from_network_data_ooo {s : TState} {p : Packet} (hc : s.closed = false)
    (hd : p.acknum < 0) (hcor : p.is_corrupt = false)
    (hseq : (p.seqnum % (seqnum_space : Int)).toNat ≠ s.expected_seqnum) :
    from_network s p = .ok (s, [make_ack ((s.last_ack_send : Nat) : Int)], []) := by
  unfold from_network
  rw [hc]
  simp only [Bool.false_eq_true, if_false]
  rw [if_neg (by omega : ¬ (0 ≤ p.acknum)), hcor]
  simp only [Bool.false_eq_true, if_false]
  rw [if_neg hseq]

/-- The window-advancing ACK branch when the (ghost) cumulative ACK
value `A` lies inside the in-flight window `(B, X]`: the entries
`[B, A)` are dropped, `base` becomes `A`, the timer is managed, and
the pending queue is drained. -/
theorem from_network_ack_advance_le {s : TState} {B X A : Nat} {p : Packet}
    (hs : Shape s B X)
    (ha : 0 ≤ p.acknum) (hcor : p.is_corrupt = false)
    (hA1 : B < A) (hA2 : A ≤ X)
    (hack : (p.acknum % (seqnum_space : Int)).toNat = A % seqnum_space) :
    from_network s p = .ok
      ({ s with
          base := A % seqnum_space,
          send_buffer := s.send_buffer.drop (A - B) ++
            (List.range (min s.app_queue.length (A + send_window - X))).map (fun j =>
              ((X + j) % seqnum_space,
               make_data (((X + j) % seqnum_space : Nat) : Int) (s.app_queue.getD j []))),
          app_queue := s.app_queue.drop (min s.app_queue.length (A + send_window - X)),
          next_seqnum := (X + min s.app_queue.length (A + send_window - X)) % seqnum_space,
          timer_active := decide (A < X + min s.app_queue.length (A + send_window - X)),
          send := s.send + min s.app_queue.length (A + send_window - X) },
        (List.range (min s.app_queue.length (A + send_window - X))).map (fun j =>
          make_data (((X + j) % seqnum_space : Nat) : Int) (s.app_queue.getD j [])),
        []) := by
  have hle : B ≤ X := hs.le
  have hwin : X ≤ B + 5 := hs.window
  have h5 : send_window = 5 := rfl
  have hlen : s.send_buffer.length = X - B := buffer_length_of_keys hs.keys_eq
  have hadv : ack_advances s (A % seqnum_space) = true := by
    rw [ack_advances_ghost hs.base_eq (by omega) (by
      show A < B + seqnum_space
      have h10 : seqnum_space = 10 := rfl
      omega)]
    rw [decide_eq_true_eq]
    exact ⟨by omega, by omega⟩
  have hpop : pop_range s.send_buffer s.base (A % seqnum_space) =
      s.send_buffer.drop (A - B) := by
    rw [hs.base_eq]
    have hAm : A % seqnum_space = (B + (A - B)) % seqnum_space := by
      congr 1
      omega
    rw [hAm, pop_range_spec (A - B) (by omega) hwin hs.keys_eq]
    congr 1
    omega
  have hkeys2 : (s.send_buffer.drop (A - B)).map Prod.fst = ghost_keys A X := by
    rw [List.map_drop, hs.keys_eq, ghost_keys_drop (A - B) (by omega)]
    congr 1
    omega
  unfold from_network
  rw [if_neg (show ¬ (s.closed = true) by rw [hs.closed_eq]; exact Bool.false_ne_true)]
  rw [if_pos ha, hcor]
  simp only [Bool.false_eq_true, if_false]
  rw [hack, hadv]
  simp only [if_true, hpop]
  by_cases hAX : A = X
  · subst hAX
    have hempty : (s.send_buffer.drop (A - B)).isEmpty = true := by
      rw [List.isEmpty_iff, ← List.length_eq_zero]
      rw [List.length_drop, hlen]
      omega
    rw [if_pos hempty]
    have hs2 : Shape ({ s with
        send_buffer := s.send_buffer.drop (A - B),
        base := A % seqnum_space,
        next_seqnum := A % seqnum_space,
        timer_active := false }) A A :=
      { closed_eq := hs.closed_eq, base_eq := rfl, next_eq := rfl,
        keys_eq := hkeys2, le := le_refl A, window := by omega,
        timer_eq := by simp }
    rw [drain_app_queue_spec hs2, tryBind_ok]
  · have hAX' : A < X := by omega
    have hempty : (s.send_buffer.drop (A - B)).isEmpty = false := by
      rw [List.isEmpty_eq_false, ← List.length_pos]
      rw [List.length_drop, hlen]
      omega
    rw [if_neg (by rw [hempty]; exact Bool.false_ne_true)]
    have hs2 : Shape ({ s with
        send_buffer := s.send_buffer.drop (A - B),
        base := A % seqnum_space,
        timer_active := true }) A X :=
      { closed_eq := hs.closed_eq, base_eq := rfl, next_eq := hs.next_eq,
        keys_eq := hkeys2, le := by omega, window := by omega,
        timer_eq := by
          show true = decide (A < X)
          simp [hAX'] }
    rw [drain_app_queue_spec hs2, tryBind_ok]

/-- The window-advancing ACK branch when the (ghost) cumulative ACK
value `A` lies beyond `next_seqnum` (`X < A ≤ B + N`, only possible
with an ACK the peer never sent): the whole buffer is dropped, `base`
and `next_seqnum` both become `A`, the timer stops, and draining is a
no-op because the queue must have been empty (the window was not
full). -/
theorem from_network_ack_advance_gt {s : TState} {B X A : Nat} {p : Packet}
    (hs : Shape s B X)
    (hq : s.app_queue ≠ [] → X = B + send_window)
    (ha : 0 ≤ p.acknum) (hcor : p.is_corrupt = false)
    (hA1 : X < A) (hA2 : A ≤ B + send_window)
    (hack : (p.acknum % (seqnum_space : Int)).toNat = A % seqnum_space) :
    from_network s p = .ok
      ({ s with
          base := A % seqnum_space,
          send_buffer := [],
          next_seqnum := A % seqnum_space,
          timer_active := false }, [], []) := by
  have hle : B ≤ X := hs.le
  have hwin : X ≤ B + 5 := hs.window
  have h5 : send_window = 5 := rfl
  have hlen : s.send_buffer.length = X - B := buffer_length_of_keys hs.keys_eq
  have hqe : s.app_queue = [] := by
    by_contra hne
    have := hq hne
    omega
  have hadv : ack_advances s (A % seqnum_space) = true := by
    rw [ack_advances_ghost hs.base_eq (by omega) (by
      show A < B + seqnum_space
      have h10 : seqnum_space = 10 := rfl
      omega)]
    rw [decide_eq_true_eq]
    exact ⟨by omega, by omega⟩
  have hpop : pop_range s.send_buffer s.base (A % seqnum_space) = [] := by
    rw [hs.base_eq]
    have hAm : A % seqnum_space = (B + (A - B)) % seqnum_space := by
      congr 1
      omega
    rw [hAm, pop_range_spec (A - B) (by omega) hwin hs.keys_eq]
    rw [← List.length_eq_zero, List.length_drop, hlen]
    omega
  unfold from_network
  rw [if_neg (show ¬ (s.closed = true) by rw [hs.closed_eq]; exact Bool.false_ne_true)]
  rw [if_pos ha, hcor]
  simp only [Bool.false_eq_true, if_false]
  rw [hack, hadv]
  simp only [if_true, hpop]
  rw [if_pos (by simp : ([] : List (Nat × Packet)).isEmpty = true)]
  have hs2 : Shape ({ s with
      send_buffer := [],
      base := A % seqnum_space,
      next_seqnum := A % seqnum_space,
      timer_active := false }) A A :=
    { closed_eq := hs.closed_eq, base_eq := rfl, next_eq := rfl,
      keys_eq := by simp [ghost_keys_self], le := le_refl A, window := by omega,
      timer_eq := by simp }
  rw [drain_app_queue_spec hs2, tryBind_ok]
  simp only [hqe, List.length_nil, Nat.zero_min, List.range_zero, List.map_nil,
    List.append_nil, List.drop_zero, Nat.add_zero, lt_self_iff_false, decide_False]

/-! ### Specification of `on_timeout` -/

theorem on_timeout_noop {s : TState} (h : s.closed = true ∨ s.timer_active = false) :
    on_timeout s = .ok (s, []) := by
  unfold on_timeout
  rw [if_pos]
  rcases h with h | h
  · exact Or.inl h
  · exact Or.inr h

/-- `on_timeout` on a shaped sender with the timer armed: the timeout
counter increments and every buffered segment is retransmitted
verbatim, in ascending (modular) sequence order; the timer stays
armed. -/
theorem on_timeout_spec {s : TState} {B X : Nat} (hs : Shape s B X)
    (ht : s.timer_active = true) :
    on_timeout s = .ok
      ({ s with timeout_num := s.timeout_num + 1,
                retransmitted := s.retransmitted + s.send_buffer.length,
                timer_active := true },
        s.send_buffer.map Prod.snd) := by
  have hbx : B < X := by
    have h1 := hs.timer_eq
    rw [ht] at h1
    have := of_decide_eq_true h1.symm
    exact this
  have hlen : s.send_buffer.length = X - B := buffer_length_of_keys hs.keys_eq
  have hrtx : rtx_aux (seqnum_space + 1) s.send_buffer s.base s.next_seqnum =
      s.send_buffer.map Prod.snd := by
    rw [hs.base_eq, hs.next_eq]
    exact rtx_aux_spec (X - B) s.send_buffer B X rfl hs.le hs.window hs.keys_eq
      (seqnum_space + 1) (by
        have h10 : seqnum_space = 10 := rfl
        have h5 : X ≤ B + 5 := hs.window
        omega)
  unfold on_timeout
  rw [if_neg (by rw [hs.closed_eq, ht]; simp)]
  rw [hrtx]
  rw [if_neg (by rw [hs.closed_eq]; exact Bool.false_ne_true)]
  rw [if_pos (by
    show ¬ (s.send_buffer.isEmpty = true)
    rw [List.isEmpty_iff]
    intro hnil
    rw [hnil] at hlen
    simp at hlen
    omega)]
  simp [List.length_map]

/-! ### The single-transport invariant -/

theorem ghost_keys_append_many {A X : Nat} (k : Nat) (h : A ≤ X) :
    ghost_keys A (X + k) =
      ghost_keys A X ++ (List.range k).map (fun j => (X + j) % seqnum_space) := by
  induction k with
  | zero => simp
  | succ n ih =>
    have harr : X + (n + 1) = (X + n) + 1 := by omega
    rw [harr, ghost_keys_append (by omega), ih, List.range_succ, List.map_append,
      List.append_assoc]
    simp

theorem acknum_mod_lt {p : Packet} :
    ((p.acknum % (seqnum_space : Int))).toNat < seqnum_space := by
  have h10 : (seqnum_space : Int) = 10 := rfl
  have h10' : seqnum_space = 10 := rfl
  rw [h10, h10']
  omega

theorem inv_init : Inv initState := by
  refine ⟨0, 0, ?_, ?_, rfl, ?_⟩
  · exact { closed_eq := rfl, base_eq := rfl, next_eq := rfl,
            keys_eq := by simp [initState, ghost_keys_self],
            le := le_refl 0, window := by omega, timer_eq := by simp [initState] }
  · show (0 : Nat) < seqnum_space
    have h10 : seqnum_space = 10 := rfl
    omega
  · intro h
    exact absurd rfl h

/-- `from_app` never fails an assertion on an invariant state, and the
invariant is preserved. -/
theorem from_app_inv_total {s : TState} (h : Inv s) (p : List Nat) :
    ∃ s' out, from_app s p = .ok (s', out) ∧ Inv s' := by
  obtain ⟨B, X, hs, hexp, hlast, hqinv⟩ := h
  have h5 : send_window = 5 := rfl
  have hle : B ≤ X := hs.le
  have hwin : X ≤ B + 5 := hs.window
  have hlen : s.send_buffer.length = X - B := buffer_length_of_keys hs.keys_eq
  by_cases hlt : X < B + send_window
  · refine ⟨_, _, from_app_send_spec p hs hlt, ?_⟩
    have hqe : s.app_queue = [] := by
      by_contra hne
      have := hqinv hne
      omega
    refine ⟨B, X + 1, ?_, hexp, hlast, ?_⟩
    · exact
        { closed_eq := hs.closed_eq, base_eq := hs.base_eq, next_eq := rfl,
          keys_eq := by
            show (s.send_buffer ++ _).map Prod.fst = _
            simp only [List.map_append, hs.keys_eq, List.map_cons, List.map_nil]
            exact (ghost_keys_append hs.le).symm,
          le := by omega, window := by omega,
          timer_eq := by
            show true = decide (B < X + 1)
            have hbx1 : B < X + 1 := by omega
            simp [hbx1] }
    · intro hne
      exact absurd hqe hne
  · refine ⟨_, _, from_app_queue_spec s p hs.closed_eq (Or.inl (by omega)), ?_⟩
    refine ⟨B, X, ?_, hexp, hlast, ?_⟩
    · exact
        { closed_eq := hs.closed_eq, base_eq := hs.base_eq, next_eq := hs.next_eq,
          keys_eq := hs.keys_eq, le := hs.le, window := hs.window,
          timer_eq := hs.timer_eq }
    · intro _
      omega

theorem shape_same_protocol {s s' : TState} {B X : Nat} (hs : Shape s B X)
    (hc : s'.closed = s.closed) (hb : s'.base = s.base) (hn : s'.next_seqnum = s.next_seqnum)
    (hk : s'.send_buffer = s.send_buffer) (ht : s'.timer_active = s.timer_active) :
    Shape s' B X :=
  { closed_eq := hc.trans hs.closed_eq, base_eq := hb.trans hs.base_eq,
    next_eq := hn.trans hs.next_eq,
    keys_eq := by rw [hk]; exact hs.keys_eq,
    le := hs.le, window := hs.window, timer_eq := ht.trans hs.timer_eq }

/-- `from_network` never fails an assertion on an invariant state
(malformed segments included), and the invariant is preserved. -/
theorem from_network_inv_total {s : TState} (h : Inv s) (p : Packet) :
    ∃ s' out dels, from_network s p = .ok (s', out, dels) ∧ Inv s' := by
  obtain ⟨B, X, hs, hexp, hlast, hqinv⟩ := h
  have h5 : send_window = 5 := rfl
  have h10 : seqnum_space = 10 := rfl
  have hle : B ≤ X := hs.le
  have hwin : X ≤ B + 5 := hs.window
  by_cases ha : 0 ≤ p.acknum
  · by_cases hcor : p.is_corrupt = true
    · refine ⟨_, _, _, from_network_ack_corrupt hs.closed_eq ha hcor,
        B, X, shape_same_protocol hs rfl rfl rfl rfl rfl, hexp, hlast, hqinv⟩
    · rw [Bool.not_eq_true] at hcor
      have ha10 : ((p.acknum % (seqnum_space : Int))).toNat < seqnum_space := acknum_mod_lt
      obtain ⟨A, hA1, hA2, hA3⟩ :=
        ack_ghost B ((p.acknum % (seqnum_space : Int))).toNat ha10
      by_cases hAB : A = B
      · refine ⟨_, _, _, from_network_ack_dup hs.closed_eq ha hcor ?_,
          B, X, shape_same_protocol hs rfl rfl rfl rfl rfl, hexp, hlast, hqinv⟩
        rw [← hA1, ack_advances_ghost hs.base_eq hA2 hA3]
        rw [decide_eq_false_iff_not]
        rintro ⟨hgt, _⟩
        omega
      · by_cases hgt5 : B + send_window < A
        · refine ⟨_, _, _, from_network_ack_dup hs.closed_eq ha hcor ?_,
            B, X, shape_same_protocol hs rfl rfl rfl rfl rfl, hexp, hlast, hqinv⟩
          rw [← hA1, ack_advances_ghost hs.base_eq hA2 hA3]
          rw [decide_eq_false_iff_not]
          rintro ⟨_, hle5⟩
          omega
        · by_cases hAX : A ≤ X
          · refine ⟨_, _, _,
              from_network_ack_advance_le hs ha hcor (by omega) hAX hA1.symm, ?_⟩
            refine ⟨A, X + min s.app_queue.length (A + send_window - X), ?_, hexp, hlast, ?_⟩
            · refine
                { closed_eq := hs.closed_eq, base_eq := rfl, next_eq := rfl,
                  keys_eq := ?_, le := by omega, window := by omega, timer_eq := rfl }
              show (List.drop (A - B) s.send_buffer ++ _).map Prod.fst = _
              rw [List.map_append, List.map_drop, hs.keys_eq,
                ghost_keys_drop (A - B) (by omega),
                show B + (A - B) = A from by omega,
                ghost_keys_append_many _ hAX, List.map_map]
              rfl
            · intro hne
              show X + _ = A + send_window
              have hk : min s.app_queue.length (A + send_window - X) <
                  s.app_queue.length := by
                by_contra hk2
                apply hne
                show List.drop _ s.app_queue = []
                rw [List.drop_eq_nil_iff]
                omega
              omega
          · refine ⟨_, _, _,
              from_network_ack_advance_gt hs hqinv ha hcor (by omega) (by omega) hA1.symm,
              ?_⟩
            have hqe : s.app_queue = [] := by
              by_contra hne
              have := hqinv hne
              omega
            refine ⟨A, A, ?_, hexp, hlast, ?_⟩
            · refine
                { closed_eq := hs.closed_eq, base_eq := rfl, next_eq := rfl,
                  keys_eq := by simp [ghost_keys_self], le := le_refl A,
                  window := by omega, timer_eq := by simp }
            · intro hne
              exact absurd hqe hne
  · have hd : p.acknum < 0 := by omega
    by_cases hcor : p.is_corrupt = true
    · refine ⟨_, _, _, from_network_data_corrupt hs.closed_eq hd hcor,
        B, X, shape_same_protocol hs rfl rfl rfl rfl rfl, hexp, rfl, hqinv⟩
    · rw [Bool.not_eq_true] at hcor
      by_cases hseq : ((p.seqnum % (seqnum_space : Int))).toNat = s.expected_seqnum
      · refine ⟨_, _, _, from_network_data_deliver hs.closed_eq hd hcor hseq,
          B, X, shape_same_protocol hs rfl rfl rfl rfl rfl, ?_, rfl, hqinv⟩
        show mod_seqnum (s.expected_seqnum + 1) < seqnum_space
        have : mod_seqnum (s.expected_seqnum + 1) = (s.expected_seqnum + 1) % 10 := rfl
        omega
      · refine ⟨_, _, _, from_network_data_ooo hs.closed_eq hd hcor hseq,
          B, X, shape_same_protocol hs rfl rfl rfl rfl rfl, hexp, hlast, hqinv⟩

/-- `on_timeout` never fails on an invariant state, and the invariant
is preserved. -/
theorem on_timeout_inv_total {s : TState} (h : Inv s) :
    ∃ s' out, on_timeout s = .ok (s', out) ∧ Inv s' := by
  obtain ⟨B, X, hs, hexp, hlast, hqinv⟩ := h
  by_cases ht : s.timer_active = true
  · refine ⟨_, _, on_timeout_spec hs ht, B, X,
      shape_same_protocol hs rfl rfl rfl rfl (by rw [ht]), hexp, hlast, hqinv⟩
  · rw [Bool.not_eq_true] at ht
    exact ⟨_, _, on_timeout_noop (Or.inr ht), B, X, hs, hexp, hlast, hqinv⟩

/-- Every reachable state satisfies the invariant. -/
theorem reachable_inv {s : TState} (h : Reachable s) : Inv s := by
  induction h with
  | init => exact inv_init
  | @app s s' p out _ happ ih =>
    obtain ⟨s2, out2, heq, hinv⟩ := from_app_inv_total ih p
    rw [happ] at heq
    injection heq with h1
    injection h1 with h2 h3
    rw [← h2] at hinv
    exact hinv
  | @net s s' p out dels _ hnet ih =>
    obtain ⟨s2, out2, dels2, heq, hinv⟩ := from_network_inv_total ih p
    rw [hnet] at heq
    injection heq with h1
    injection h1 with h2 h3
    rw [← h2] at hinv
    exact hinv
  | @timeout s s' out _ htmo ih =>
    obtain ⟨s2, out2, heq, hinv⟩ := on_timeout_inv_total ih
    rw [htmo] at heq
    injection heq with h1
    injection h1 with h2 h3
    rw [← h2] at hinv
    exact hinv

theorem mod_dist_ghost {B X : Nat} (h1 : B ≤ X) (h2 : X < B + seqnum_space) :
    mod_dist (B % seqnum_space) (X % seqnum_space) = X - B := by
  have h10 : seqnum_space = 10 := rfl
  simp only [mod_dist, seqnum_space, send_window] at *
  omega

theorem mod_range_ghost {B X : Nat} (h1 : B ≤ X) (h2 : X ≤ B + send_window) :
    mod_range (B % seqnum_space) (X % seqnum_space) = ghost_keys B X := by
  have h5 : send_window = 5 := rfl
  have h10 : seqnum_space = 10 := rfl
  unfold mod_range ghost_keys
  rw [mod_dist_ghost h1 (by omega)]
  apply List.map_congr_left
  intro i _
  exact Nat.mod_add_mod B seqnum_space i

theorem stA_reachable : Reachable stA :=
  Reachable.app Reachable.init
    (show from_app initState [65] = .ok (stA, [make_data 0 [65]]) by rfl)

/-! ## The claims -/

/-- Claim C2 (code bug): the code's `compute_checksum` does NOT equal
the reference 16-bit one's-complement checksum with end-around carry
folding.  At `seqnum = 0`, `acknum = -1`, empty payload, the code
returns `1` while the reference algorithm returns `0`: line 13 of
`packet.py` masks the running total to 16 bits before the fold on
line 14, so the fold is dead code and end-around carries are silently
discarded, contradicting both the spec and the function's own
docstring ("fold carry bits"). -/
theorem C2_checksum_code_bug :
    compute_checksum 0 (-1) [] = 1 ∧ ref_checksum 0 (-1) [] = 0 ∧
    compute_checksum 0 (-1) [] ≠ ref_checksum 0 (-1) [] := by
  refine ⟨by rfl, by rfl, by decide⟩

/-- Claim C8: a freshly constructed segment is never reported corrupt:
for every representable seqnum and every payload,
`make_data(seqnum, payload).is_corrupt` is false, and for every
representable acknum, `make_ack(acknum).is_corrupt` is false. -/
theorem C8_checksum_roundtrip :
    (∀ (seqnum : Int) (payload : List Nat),
      -(2 ^ 31) ≤ seqnum → seqnum < 2 ^ 31 →
      (make_data seqnum payload).is_corrupt = false) ∧
    (∀ acknum : Int, -(2 ^ 31) ≤ acknum → acknum < 2 ^ 31 →
      (make_ack acknum).is_corrupt = false) :=
  ⟨fun s p _ _ => make_data_not_corrupt s p,
   fun a _ _ => make_ack_not_corrupt a⟩

/-- Witness for C8 at seqnum 3, payload `b"AB"`, acknum 7. -/
theorem C8_checksum_roundtrip_witness :
    (make_data 3 [65, 66]).is_corrupt = false ∧ (make_ack 7).is_corrupt = false :=
  ⟨C8_checksum_roundtrip.1 3 [65, 66] (by decide) (by decide),
   C8_checksum_roundtrip.2 7 (by decide) (by decide)⟩

/-- Claim C4: full behaviour of the receiver's DATA path, for every
(open) receiver state and every inbound DATA segment (`acknum < 0`,
wire-valid `seqnum`): (i) if corrupt, the corrupted-data counter
increments, nothing is delivered, and an ACK carrying
`expected_seqnum` is sent; (ii) if `seqnum = expected_seqnum`, the
payload is delivered exactly once, `expected_seqnum` advances by one
modulo the space, `last_ack_send` is set to the new value, and an ACK
carrying it is sent; (iii) otherwise nothing is delivered,
`expected_seqnum` is unchanged, and an ACK carrying `last_ack_send`
(not `expected_seqnum`) is sent. -/
theorem C4_receiver_data_behavior (s : TState) (p : Packet)
    (hc : s.closed = false) (hdata : p.acknum < 0)
    (h0 : 0 ≤ p.seqnum) (hlt : p.seqnum < (seqnum_space : Int)) :
    (p.is_corrupt = true →
      from_network s p = .ok
        ({ s with rx_corrupted_data := s.rx_corrupted_data + 1,
                  last_ack_send := s.expected_seqnum },
         [make_ack ((s.expected_seqnum : Nat) : Int)], [])) ∧
    (p.is_corrupt = false → p.seqnum = (s.expected_seqnum : Int) →
      from_network s p = .ok
        ({ s with expected_seqnum := (s.expected_seqnum + 1) % seqnum_space,
                  last_ack_send := (s.expected_seqnum + 1) % seqnum_space },
         [make_ack (((s.expected_seqnum + 1) % seqnum_space : Nat) : Int)], [p.data])) ∧
    (p.is_corrupt = false → p.seqnum ≠ (s.expected_seqnum : Int) →
      from_network s p = .ok (s, [make_ack ((s.last_ack_send : Nat) : Int)], [])) := by
  have h10 : (seqnum_space : Int) = 10 := rfl
  refine ⟨?_, ?_, ?_⟩
  · intro hcor
    exact from_network_data_corrupt hc hdata hcor
  · intro hcor hseq
    refine from_network_data_deliver hc hdata hcor ?_
    rw [h10]
    omega
  · intro hcor hseq
    refine from_network_data_ooo hc hdata hcor ?_
    rw [h10]
    intro habs
    apply hseq
    omega

/-- Witness for C4 at the fresh receiver and the in-order DATA segment
with sequence number 0: the payload is delivered and ACK 1 is sent. -/
theorem C4_receiver_data_behavior_witness :
    from_network initState (make_data 0 [65]) = .ok
      ({ initState with expected_seqnum := 1, last_ack_send := 1 },
       [make_ack ((1 : Nat) : Int)], [[65]]) :=
  (C4_receiver_data_behavior initState (make_data 0 [65]) rfl (by decide) (by decide)
    (by decide)).2.1 (by decide) (by decide)

/-- Claim C6: after every sequence of public operations from the
initial state, the in-flight buffer size equals
`(next_seqnum - base) mod seqnum_space` and never exceeds the window
size. -/
theorem C6_inflight_size (s : TState) (h : Reachable s) :
    s.send_buffer.length = mod_dist s.base s.next_seqnum ∧
    s.send_buffer.length ≤ send_window := by
  obtain ⟨B, X, hs, -, -, -⟩ := reachable_inv h
  have hlen := buffer_length_of_keys hs.keys_eq
  have hle := hs.le
  have hwin := hs.window
  constructor
  · rw [hlen, hs.base_eq, hs.next_eq, mod_dist_ghost hle (by
      have h10 : seqnum_space = 10 := rfl
      have h5 : send_window = 5 := rfl
      omega)]
  · rw [hlen]
    omega

/-- Witness for C6 at the reachable state with one segment in flight. -/
theorem C6_inflight_size_witness :
    stA.send_buffer.length = mod_dist stA.base stA.next_seqnum ∧
    stA.send_buffer.length ≤ send_window :=
  C6_inflight_size stA stA_reachable

/-- Claim C7: on a (never-closed) transport, after every operation
from the initial state the timer is armed iff the in-flight buffer is
non-empty. -/
theorem C7_timer_invariant (s : TState) (h : Reachable s) :
    s.timer_active = true ↔ s.send_buffer ≠ [] := by
  obtain ⟨B, X, hs, -, -, -⟩ := reachable_inv h
  have hlen := buffer_length_of_keys hs.keys_eq
  have hle := hs.le
  rw [hs.timer_eq, decide_eq_true_eq]
  constructor
  · intro hbx hnil
    rw [hnil] at hlen
    simp at hlen
    omega
  · intro hne
    rcases Nat.lt_or_ge B X with hbx | hbx
    · exact hbx
    · exfalso
      exact hne (List.length_eq_zero.mp (by omega))

/-- Witness for C7 at the reachable state with one segment in flight. -/
theorem C7_timer_invariant_witness :
    stA.timer_active = true ↔ stA.send_buffer ≠ [] :=
  C7_timer_invariant stA stA_reachable

/-- Claim C10: `last_ack_send = expected_seqnum` holds initially (both
zero) and after every sequence of operations from the initial state,
so the out-of-order re-ACK (which carries `last_ack_send`) and the
corrupt-DATA re-ACK (which carries `expected_seqnum`) always transmit
the same value. -/
theorem C10_last_ack_invariant :
    initState.last_ack_send = 0 ∧ initState.expected_seqnum = 0 ∧
    ∀ s : TState, Reachable s → s.last_ack_send = s.expected_seqnum := by
  refine ⟨rfl, rfl, fun s h => ?_⟩
  obtain ⟨B, X, -, -, hlast, -⟩ := reachable_inv h
  exact hlast

/-- Witness for C10 at the reachable state with one segment in flight. -/
theorem C10_last_ack_invariant_witness : stA.last_ack_send = stA.expected_seqnum :=
  C10_last_ack_invariant.2.2 stA stA_reachable

/-- Claim C9, counterexample: the claim says a segment that is neither
a well-formed ACK nor a well-formed DATA segment (here `acknum = -5`)
makes the receive entry point fail an assertion-style fatal check.  In
fact `from_network` contains no such check: it routes `acknum < 0` to
the DATA path and even delivers the malformed segment's payload as
in-order data, advancing `expected_seqnum`. -/
theorem C9_counterexample :
    c9bad.acknum < -1 ∧ c9bad.is_corrupt = false ∧
    from_network initState c9bad =
      .ok (c9state, [make_ack ((1 : Nat) : Int)], [[]]) ∧
    c9state.expected_seqnum = 1 := by
  refine ⟨by decide, by decide, by rfl, rfl⟩

/-- Claim C9, amended: the transport's receive entry point never
rejects a segment.  Malformed segments are silently normalised
(`acknum`/`seqnum` are reduced modulo the sequence space; any
`acknum < 0` is treated as DATA) and processed: on every reachable
state, `from_network` returns normally for every packet whatsoever —
the only assertions in the transport live on the send path and cannot
fire on reachable states. -/
theorem C9_amended (s : TState) (p : Packet) (h : Reachable s) :
    ∃ s' out dels, from_network s p = .ok (s', out, dels) := by
  obtain ⟨s', out, dels, heq, -⟩ := from_network_inv_total (reachable_inv h) p
  exact ⟨s', out, dels, heq⟩

/-- Witness for the amended C9 at the initial state and the malformed
segment `c9bad`. -/
theorem C9_amended_witness :
    ∃ s' out dels, from_network initState c9bad = .ok (s', out, dels) :=
  C9_amended initState c9bad Reachable.init

/-- Claim C5: on every reachable non-closed state with the timer
armed, `on_timeout` increments the timeout counter and retransmits a
verbatim copy of every buffered segment with sequence number in
`[base, next_seqnum)` (the buffer holds exactly those, in ascending
modular sequence order); afterwards the timer is rearmed, which agrees
with "rearmed iff in-flight non-empty" because the in-flight buffer is
provably non-empty whenever the timer was armed (so the
stop-and-drain branch for an empty buffer is unreachable). -/
theorem C5_on_timeout (s : TState) (hr : Reachable s) (ht : s.timer_active = true) :
    on_timeout s = .ok
      ({ s with timeout_num := s.timeout_num + 1,
                retransmitted := s.retransmitted + s.send_buffer.length,
                timer_active := true },
        s.send_buffer.map Prod.snd) ∧
    s.send_buffer.map Prod.fst = mod_range s.base s.next_seqnum ∧
    s.send_buffer ≠ [] := by
  obtain ⟨B, X, hs, -, -, -⟩ := reachable_inv hr
  have hbx : B < X := by
    have h1 := hs.timer_eq
    rw [ht] at h1
    exact of_decide_eq_true h1.symm
  have hlen := buffer_length_of_keys hs.keys_eq
  refine ⟨on_timeout_spec hs ht, ?_, ?_⟩
  · rw [hs.keys_eq, hs.base_eq, hs.next_eq, mod_range_ghost hs.le hs.window]
  · intro hnil
    rw [hnil] at hlen
    simp at hlen
    omega

/-- Witness for C5 at the reachable state with one segment in flight:
the timeout retransmits exactly that segment. -/
theorem C5_on_timeout_witness :
    (on_timeout stA = .ok
      ({ stA with timeout_num := stA.timeout_num + 1,
                  retransmitted := stA.retransmitted + stA.send_buffer.length,
                  timer_active := true },
        stA.send_buffer.map Prod.snd) ∧
     stA.send_buffer.map Prod.fst = mod_range stA.base stA.next_seqnum ∧
     stA.send_buffer ≠ []) :=
  C5_on_timeout stA stA_reachable rfl

/-! ### Claim C3: ACK-path behaviour -/

theorem filter_not_mem_range_drop (L : List (Nat × Packet)) :
    ∀ (B X d : Nat), X ≤ B + 5 → d ≤ 5 →
      L.map Prod.fst = ghost_keys B X →
      L.filter (fun e =>
        decide (e.1 ∉ (List.range d).map (fun i => (B + i) % seqnum_space))) =
        L.drop (min d (X - B)) := by
  induction L with
  | nil =>
    intro B X d _ _ _
    simp
  | cons e tail ih =>
    intro B X d hw hd hkeys
    have hbx : B < X := by
      by_contra hbx
      have h0 : X - B = 0 := by omega
      rw [ghost_keys_nil_iff.mpr h0] at hkeys
      simp at hkeys
    rw [ghost_keys_cons hbx] at hkeys
    simp only [List.map_cons, List.cons.injEq] at hkeys
    obtain ⟨hk, htail⟩ := hkeys
    match d with
    | 0 =>
      simp only [Nat.zero_min, List.drop_zero, List.range_zero, List.map_nil]
      exact List.filter_eq_self.mpr (fun a _ => by simp)
    | d + 1 =>
      have hmem : e.1 ∈ (List.range (d + 1)).map (fun i => (B + i) % seqnum_space) := by
        rw [hk, show B % seqnum_space = (B + 0) % seqnum_space from by rw [Nat.add_zero]]
        exact List.mem_map_of_mem _ (List.mem_range.mpr (by omega))
      rw [List.filter_cons_of_neg (by simpa using hmem)]
      have hcongr : tail.filter (fun e2 =>
          decide (e2.1 ∉ (List.range (d + 1)).map (fun i => (B + i) % seqnum_space))) =
          tail.filter (fun e2 =>
          decide (e2.1 ∉ (List.range d).map (fun i => (B + 1 + i) % seqnum_space))) := by
        apply List.filter_congr
        intro e2 he2
        have hkey : e2.1 ∈ ghost_keys (B + 1) X := by
          rw [← htail]
          exact List.mem_map_of_mem Prod.fst he2
        simp only [ghost_keys, List.mem_map, List.mem_range] at hkey
        obtain ⟨j, hj, hkey⟩ := hkey
        rw [← hkey, decide_eq_decide]
        simp only [List.mem_map, List.mem_range, not_exists, not_and]
        have h10 : seqnum_space = 10 := rfl
        constructor
        · intro hno i hi
          have := hno (i + 1) (by omega)
          intro habs
          apply this
          rw [← habs]
          congr 1
          omega
        · intro hno i hi habs
          match i, hi with
          | 0, _ =>
            rw [h10] at habs
            omega
          | i + 1, hi =>
            have := hno i (by omega)
            apply this
            rw [← habs]
            congr 1
            omega
      rw [hcongr, ih (B + 1) X d (by omega) (by omega) htail]
      have hmin : min (d + 1) (X - B) = min d (X - (B + 1)) + 1 := by omega
      rw [hmin, List.drop_succ_cons]

theorem ack_remaining_drop {s : TState} {B X A a : Nat} (hs : Shape s B X)
    (h1 : B < A) (h2 : A ≤ B + 5) (hA : A % seqnum_space = a) :
    ack_remaining s a = s.send_buffer.drop (A - B) := by
  have h10 : seqnum_space = 10 := rfl
  have hlen := buffer_length_of_keys hs.keys_eq
  unfold ack_remaining
  rw [hs.base_eq, ← hA]
  have hrange : mod_range (B % seqnum_space) (A % seqnum_space) =
      (List.range (A - B)).map (fun i => (B + i) % seqnum_space) := by
    unfold mod_range
    rw [mod_dist_ghost (by omega) (by omega)]
    apply List.map_congr_left
    intro i _
    exact Nat.mod_add_mod B seqnum_space i
  rw [hrange, filter_not_mem_range_drop _ B X (A - B) hs.window (by omega) hs.keys_eq]
  by_cases hAX : A ≤ X
  · congr 1
    omega
  · rw [List.drop_eq_nil_of_le (by omega), List.drop_eq_nil_of_le (by omega)]

/-- Claim C3: full behaviour of the sender's ACK path on every
reachable state: (i) a corrupt ACK only increments the corrupted-ACK
counter; (ii) with `dist = (acknum - base) mod seqnumSpace`, a value
`dist = 0` or `dist > windowSize` only increments the duplicate-ACK
counter; (iii) when `0 < dist <= windowSize` exactly the in-flight
entries with sequence numbers in `[base, acknum)` modulo the space are
removed, `base` becomes `acknum`; if the buffer emptied the
`next_seqnum` is resynchronised and the timer stopped, else the timer
restarts; after which the pending queue is drained FIFO while the
window allows (`drain_count` packets, with consecutive sequence
numbers from `drain_start`, recorded in the buffer and handed to the
network). -/
theorem C3_ack_behavior (s : TState) (p : Packet) (hr : Reachable s)
    (hack : 0 ≤ p.acknum) :
    (p.is_corrupt = true →
      from_network s p = .ok
        ({ s with rx_corrupted_acks := s.rx_corrupted_acks + 1 }, [], [])) ∧
    (∀ a, (p.acknum % (seqnum_space : Int)).toNat = a → p.is_corrupt = false →
      ((mod_dist s.base a = 0 ∨ send_window < mod_dist s.base a) →
        from_network s p = .ok
          ({ s with duplicate_acks := s.duplicate_acks + 1 }, [], [])) ∧
      (0 < mod_dist s.base a → mod_dist s.base a ≤ send_window →
        from_network s p = .ok
          ({ s with
              base := a,
              send_buffer := ack_remaining s a ++ drain_entries s a,
              app_queue := s.app_queue.drop (drain_count s a),
              next_seqnum := mod_seqnum (drain_start s a + drain_count s a),
              timer_active := decide (ack_remaining s a ≠ [] ∨ 0 < drain_count s a),
              send := s.send + drain_count s a },
            drain_sent s a, []))) := by
  obtain ⟨B, X, hs, hexp, hlast, hqinv⟩ := reachable_inv hr
  have h5 : send_window = 5 := rfl
  have h10 : seqnum_space = 10 := rfl
  have hle := hs.le
  have hwin := hs.window
  have hlen := buffer_length_of_keys hs.keys_eq
  refine ⟨fun hcor => from_network_ack_corrupt hs.closed_eq hack hcor, ?_⟩
  rintro a rfl hcor
  have ha10 : ((p.acknum % (seqnum_space : Int))).toNat < seqnum_space := acknum_mod_lt
  obtain ⟨A, hA1, hA2, hA3⟩ :=
    ack_ghost B ((p.acknum % (seqnum_space : Int))).toNat ha10
  have hdist : mod_dist s.base ((p.acknum % (seqnum_space : Int))).toNat = A - B := by
    rw [hs.base_eq, ← hA1]
    exact mod_dist_ghost hA2 hA3
  constructor
  · intro hdup
    rw [hdist] at hdup
    refine from_network_ack_dup hs.closed_eq hack hcor ?_
    rw [← hA1, ack_advances_ghost hs.base_eq hA2 hA3, decide_eq_false_iff_not]
    rintro ⟨hgt, hle5⟩
    omega
  · intro hpos hle5
    rw [hdist] at hpos hle5
    have hBA : B < A := by omega
    have hAB5 : A ≤ B + 5 := by omega
    have hrem : ack_remaining s ((p.acknum % (seqnum_space : Int))).toNat =
        s.send_buffer.drop (A - B) := ack_remaining_drop hs hBA hAB5 hA1
    by_cases hAX : A ≤ X
    · rw [from_network_ack_advance_le hs hack hcor hBA hAX hA1.symm]
      have hremlen : (ack_remaining s ((p.acknum % (seqnum_space : Int))).toNat).length =
          X - A := by
        rw [hrem, List.length_drop, hlen]
        omega
      have hk : drain_count s ((p.acknum % (seqnum_space : Int))).toNat =
          min s.app_queue.length (A + send_window - X) := by
        unfold drain_count
        rw [hremlen]
        congr 1
        omega
      have hstart : ∀ j : Nat, mod_seqnum
          (drain_start s ((p.acknum % (seqnum_space : Int))).toNat + j) =
          (X + j) % seqnum_space := by
        intro j
        unfold drain_start
        by_cases hAXe : A = X
        · have hre : ack_remaining s ((p.acknum % (seqnum_space : Int))).toNat = [] := by
            rw [hrem, List.drop_eq_nil_of_le (by omega)]
          rw [if_pos hre]
          show (_ + j) % seqnum_space = _
          rw [← hA1, hAXe]
          conv_rhs => rw [← Nat.mod_add_mod]
        · have hre : ack_remaining s ((p.acknum % (seqnum_space : Int))).toNat ≠ [] := by
            rw [hrem]
            intro habs
            have := congrArg List.length habs
            rw [List.length_drop, hlen] at this
            simp at this
            omega
          rw [if_neg hre, hs.next_eq]
          show (X % seqnum_space + j) % seqnum_space = _
          exact Nat.mod_add_mod X seqnum_space j
      refine congrArg Except.ok ?_
      refine Prod.ext ?_ (Prod.ext ?_ rfl)
      · ext1
        · exact hA1
        · show (X + min s.app_queue.length (A + send_window - X)) % seqnum_space =
            mod_seqnum (drain_start s _ + drain_count s _)
          rw [hstart, hk]
        · show s.send_buffer.drop (A - B) ++ _ = ack_remaining s _ ++ drain_entries s _
          rw [hrem]
          congr 1
          unfold drain_entries
          rw [hk]
          apply List.map_congr_left
          intro j _
          rw [hstart]
        · show s.app_queue.drop _ = s.app_queue.drop (drain_count s _)
          rw [hk]
        · rfl
        · rfl
        · show decide (A < X + min s.app_queue.length (A + send_window - X)) =
            decide (ack_remaining s _ ≠ [] ∨ 0 < drain_count s _)
          rw [decide_eq_decide, hk]
          constructor
          · intro hlt2
            by_cases hAXe : A = X
            · right
              omega
            · left
              rw [hrem]
              intro habs
              have := congrArg List.length habs
              rw [List.length_drop, hlen] at this
              simp at this
              omega
          · rintro (hne | hpos2)
            · have : (ack_remaining s ((p.acknum % (seqnum_space : Int))).toNat).length ≠
                  0 := by
                intro habs
                exact hne (List.length_eq_zero.mp habs)
              rw [hremlen] at this
              omega
            · omega
        · rfl
        · show s.send + min s.app_queue.length (A + send_window - X) =
            s.send + drain_count s _
          rw [hk]
        · rfl
        · rfl
        · rfl
        · rfl
        · rfl
      · show (List.range (min s.app_queue.length (A + send_window - X))).map _ =
          drain_sent s _
        unfold drain_sent
        rw [hk]
        apply List.map_congr_left
        intro j _
        rw [hstart]
    · have hXA : X < A := by omega
      have hqe : s.app_queue = [] := by
        by_contra hne
        have := hqinv hne
        omega
      rw [from_network_ack_advance_gt hs hqinv hack hcor hXA hAB5 hA1.symm]
      have hre : ack_remaining s ((p.acknum % (seqnum_space : Int))).toNat = [] := by
        rw [hrem, List.drop_eq_nil_of_le (by omega)]
      have hk0 : drain_count s ((p.acknum % (seqnum_space : Int))).toNat = 0 := by
        unfold drain_count
        rw [hqe]
        simp
      refine congrArg Except.ok ?_
      refine Prod.ext ?_ (Prod.ext ?_ rfl)
      · ext1
        · show A % seqnum_space = _
          rw [hA1]
        · show A % seqnum_space = mod_seqnum (drain_start s _ + drain_count s _)
          rw [hk0, Nat.add_zero]
          unfold drain_start
          rw [if_pos hre]
          show A % seqnum_space = _ % seqnum_space
          rw [← hA1]
          simp only [seqnum_space, send_window]
          omega
        · show ([] : List (Nat × Packet)) = ack_remaining s _ ++ drain_entries s _
          rw [hre]
          unfold drain_entries
          rw [hk0]
          simp
        · show s.app_queue = s.app_queue.drop (drain_count s _)
          rw [hk0]
          simp
        · rfl
        · rfl
        · show false = decide (ack_remaining s _ ≠ [] ∨ 0 < drain_count s _)
          rw [hre, hk0]
          simp
        · rfl
        · show s.send = s.send + drain_count s _
          rw [hk0, Nat.add_zero]
        · rfl
        · rfl
        · rfl
        · rfl
        · rfl
      · show ([] : List Packet) = drain_sent s _
        unfold drain_sent
        rw [hk0]
        simp

/-- Witness for C3 at the reachable one-in-flight state and the
cumulative ACK 1, which acknowledges the single outstanding segment. -/
theorem C3_ack_behavior_witness :
    ((make_ack 1).is_corrupt = true →
      from_network stA (make_ack 1) = .ok
        ({ stA with rx_corrupted_acks := stA.rx_corrupted_acks + 1 }, [], [])) ∧
    (∀ a, ((make_ack 1).acknum % (seqnum_space : Int)).toNat = a →
      (make_ack 1).is_corrupt = false →
      ((mod_dist stA.base a = 0 ∨ send_window < mod_dist stA.base a) →
        from_network stA (make_ack 1) = .ok
          ({ stA with duplicate_acks := stA.duplicate_acks + 1 }, [], [])) ∧
      (0 < mod_dist stA.base a → mod_dist stA.base a ≤ send_window →
        from_network stA (make_ack 1) = .ok
          ({ stA with
              base := a,
              send_buffer := ack_remaining stA a ++ drain_entries stA a,
              app_queue := stA.app_queue.drop (drain_count stA a),
              next_seqnum := mod_seqnum (drain_start stA a + drain_count stA a),
              timer_active := decide (ack_remaining stA a ≠ [] ∨ 0 < drain_count stA a),
              send := stA.send + drain_count stA a },
            drain_sent stA a, []))) :=
  C3_ack_behavior stA (make_ack 1) stA_reachable (by decide)

/-! ### Channel invariant lemmas -/

theorem BAinv_lo_mono {hi : Nat} (l : List Packet) :
    ∀ {lo lo' : Nat}, lo' ≤ lo → BAinv lo hi l → BAinv lo' hi l := by
  induction l with
  | nil => intro lo lo' _ _; trivial
  | cons pkt rest ih =>
    intro lo lo' hle h
    rcases h with ⟨hc, hrest⟩ | ⟨a, ha1, ha2, hpkt, hrest⟩
    · exact Or.inl ⟨hc, ih hle hrest⟩
    · exact Or.inr ⟨a, le_trans hle ha1, ha2, hpkt, hrest⟩

theorem BAinv_hi_mono {lo hi hi' : Nat} (l : List Packet) (hle : hi ≤ hi') :
    BAinv lo hi l → BAinv lo hi' l := by
  induction l generalizing lo with
  | nil => intro _; trivial
  | cons pkt rest ih =>
    intro h
    rcases h with ⟨hc, hrest⟩ | ⟨a, ha1, ha2, hpkt, hrest⟩
    · exact Or.inl ⟨hc, ih hrest⟩
    · exact Or.inr ⟨a, ha1, le_trans ha2 hle, hpkt, ih hrest⟩

theorem BAinv_append_ack {hi : Nat} (l : List Packet) :
    ∀ {lo a' : Nat}, BAinv lo hi l → lo ≤ a' → hi ≤ a' →
    BAinv lo a' (l ++ [make_ack ((a' % seqnum_space : Nat) : Int)]) := by
  induction l with
  | nil =>
    intro lo a' _ h1 _
    exact Or.inr ⟨a', h1, le_refl a', rfl, trivial⟩
  | cons pkt rest ih =>
    intro lo a' h h1 h2
    rcases h with ⟨hc, hrest⟩ | ⟨a, ha1, ha2, hpkt, hrest⟩
    · exact Or.inl ⟨hc, ih hrest h1 h2⟩
    · exact Or.inr ⟨a, ha1, le_trans ha2 h2, hpkt, ih hrest (le_trans ha2 h2) h2⟩

theorem BAinv_set_corrupt {hi : Nat} (l : List Packet) :
    ∀ {lo : Nat} (i : Nat) (q : Packet), q.is_corrupt = true →
    BAinv lo hi l → BAinv lo hi (l.set i q) := by
  induction l with
  | nil => intro lo i q _ _; simp; trivial
  | cons pkt rest ih =>
    intro lo i q hq h
    rcases h with ⟨hc, hrest⟩ | ⟨a, ha1, ha2, hpkt, hrest⟩
    · match i with
      | 0 => exact Or.inl ⟨hq, hrest⟩
      | i + 1 => exact Or.inl ⟨hc, ih i q hq hrest⟩
    · match i with
      | 0 => exact Or.inl ⟨hq, BAinv_lo_mono rest ha1 hrest⟩
      | i + 1 => exact Or.inr ⟨a, ha1, ha2, hpkt, ih i q hq hrest⟩

theorem BAinv_eraseIdx {hi : Nat} (l : List Packet) :
    ∀ {lo : Nat} (i : Nat), BAinv lo hi l → BAinv lo hi (l.eraseIdx i) := by
  induction l with
  | nil => intro lo i _; trivial
  | cons pkt rest ih =>
    intro lo i h
    rcases h with ⟨hc, hrest⟩ | ⟨a, ha1, ha2, hpkt, hrest⟩
    · match i with
      | 0 => exact BAinv_lo_mono rest (le_refl _) hrest
      | i + 1 => exact Or.inl ⟨hc, ih i hrest⟩
    · match i with
      | 0 => exact BAinv_lo_mono rest ha1 hrest
      | i + 1 => exact Or.inr ⟨a, ha1, ha2, hpkt, ih i hrest⟩

theorem ABinv_lo_mono {sub : List (List Nat)} {X : Nat} (l : List Packet) :
    ∀ {lo lo' : Nat}, lo' ≤ lo → ABinv sub lo X l → ABinv sub lo' X l := by
  induction l with
  | nil => intro lo lo' _ _; trivial
  | cons pkt rest ih =>
    intro lo lo' hle h
    rcases h with ⟨hc, hrest⟩ | ⟨hpkt, hrest⟩ | ⟨i, hi1, hi2, hpkt, hrest⟩
    · exact Or.inl ⟨hc, ih hle hrest⟩
    · exact Or.inr (Or.inl ⟨hpkt, ih hle hrest⟩)
    · refine Or.inr (Or.inr ⟨i, le_trans hle hi1, hi2, hpkt, ?_⟩)
      exact ih (by omega) hrest

theorem ABinv_X_mono {sub : List (List Nat)} {X X' : Nat} (l : List Packet)
    (hX : X ≤ X') : ∀ {lo : Nat}, ABinv sub lo X l → ABinv sub lo X' l := by
  induction l with
  | nil => intro _ _; trivial
  | cons pkt rest ih =>
    intro lo h
    rcases h with ⟨hc, hrest⟩ | ⟨hpkt, hrest⟩ | ⟨i, hi1, hi2, hpkt, hrest⟩
    · exact Or.inl ⟨hc, ih hrest⟩
    · exact Or.inr (Or.inl ⟨hpkt, ih hrest⟩)
    · exact Or.inr (Or.inr ⟨i, hi1, by omega, hpkt, ih hrest⟩)

theorem ABinv_sub_extend {sub : List (List Nat)} {X : Nat} (p : List Nat)
    (hlen : X ≤ sub.length) (l : List Packet) :
    ∀ {lo : Nat}, ABinv sub lo X l → ABinv (sub ++ [p]) lo X l := by
  induction l with
  | nil => intro _ _; trivial
  | cons pkt rest ih =>
    intro lo h
    rcases h with ⟨hc, hrest⟩ | ⟨hpkt, hrest⟩ | ⟨i, hi1, hi2, hpkt, hrest⟩
    · exact Or.inl ⟨hc, ih hrest⟩
    · exact Or.inr (Or.inl ⟨hpkt, ih hrest⟩)
    · refine Or.inr (Or.inr ⟨i, hi1, hi2, ?_, ih hrest⟩)
      rw [hpkt, List.getD_append _ _ _ _ (by omega)]

theorem ABinv_set_corrupt {sub : List (List Nat)} {X : Nat} (l : List Packet) :
    ∀ {lo : Nat} (i : Nat) (q : Packet), q.is_corrupt = true →
    ABinv sub lo X l → ABinv sub lo X (l.set i q) := by
  induction l with
  | nil => intro lo i q _ _; simp; trivial
  | cons pkt rest ih =>
    intro lo i q hq h
    rcases h with ⟨hc, hrest⟩ | ⟨hpkt, hrest⟩ | ⟨j, hj1, hj2, hpkt, hrest⟩
    · match i with
      | 0 => exact Or.inl ⟨hq, hrest⟩
      | i + 1 => exact Or.inl ⟨hc, ih i q hq hrest⟩
    · match i with
      | 0 => exact Or.inl ⟨hq, hrest⟩
      | i + 1 => exact Or.inr (Or.inl ⟨hpkt, ih i q hq hrest⟩)
    · match i with
      | 0 => exact Or.inl ⟨hq, ABinv_lo_mono rest (by omega) hrest⟩
      | i + 1 => exact Or.inr (Or.inr ⟨j, hj1, hj2, hpkt, ih i q hq hrest⟩)

theorem ABinv_eraseIdx {sub : List (List Nat)} {X : Nat} (l : List Packet) :
    ∀ {lo : Nat} (i : Nat), ABinv sub lo X l → ABinv sub lo X (l.eraseIdx i) := by
  induction l with
  | nil => intro lo i _; trivial
  | cons pkt rest ih =>
    intro lo i h
    rcases h with ⟨hc, hrest⟩ | ⟨hpkt, hrest⟩ | ⟨j, hj1, hj2, hpkt, hrest⟩
    · match i with
      | 0 => exact hrest
      | i + 1 => exact Or.inl ⟨hc, ih i hrest⟩
    · match i with
      | 0 => exact hrest
      | i + 1 => exact Or.inr (Or.inl ⟨hpkt, ih i hrest⟩)
    · match i with
      | 0 => exact ABinv_lo_mono rest (by omega) hrest
      | i + 1 => exact Or.inr (Or.inr ⟨j, hj1, hj2, hpkt, ih i hrest⟩)

theorem ABinv_append_data {sub : List (List Nat)} {X' : Nat} (l : List Packet) :
    ∀ {lo i : Nat}, ABinv sub lo X' l → lo ≤ i → X' ≤ i + send_window → i < X' →
    ABinv sub lo X'
      (l ++ [make_data ((i % seqnum_space : Nat) : Int) (sub.getD i [])]) := by
  induction l with
  | nil =>
    intro lo i _ h1 _ h3
    exact Or.inr (Or.inr ⟨i, h1, h3, rfl, trivial⟩)
  | cons pkt rest ih =>
    intro lo i h h1 h2 h3
    rcases h with ⟨hc, hrest⟩ | ⟨hpkt, hrest⟩ | ⟨j, hj1, hj2, hpkt, hrest⟩
    · exact Or.inl ⟨hc, ih hrest h1 h2 h3⟩
    · exact Or.inr (Or.inl ⟨hpkt, ih hrest h1 h2 h3⟩)
    · refine Or.inr (Or.inr ⟨j, hj1, hj2, hpkt, ?_⟩)
      have h5 : send_window = 5 := rfl
      exact ih hrest (by omega) h2 h3

theorem ABinv_append_ack0 {sub : List (List Nat)} {X : Nat} (l : List Packet) :
    ∀ {lo : Nat}, ABinv sub lo X l → ABinv sub lo X (l ++ [make_ack 0]) := by
  induction l with
  | nil => intro _ _; exact Or.inr (Or.inl ⟨rfl, trivial⟩)
  | cons pkt rest ih =>
    intro lo h
    rcases h with ⟨hc, hrest⟩ | ⟨hpkt, hrest⟩ | ⟨j, hj1, hj2, hpkt, hrest⟩
    · exact Or.inl ⟨hc, ih hrest⟩
    · exact Or.inr (Or.inl ⟨hpkt, ih hrest⟩)
    · exact Or.inr (Or.inr ⟨j, hj1, hj2, hpkt, ih hrest⟩)

theorem window_list_append_many {sub : List (List Nat)} {A X : Nat} (k : Nat)
    (h : A ≤ X) :
    window_list sub A (X + k) =
      window_list sub A X ++ (List.range k).map (fun j =>
        ((X + j) % seqnum_space,
         make_data (((X + j) % seqnum_space : Nat) : Int) (sub.getD (X + j) []))) := by
  induction k with
  | zero => simp
  | succ n ih =>
    have harr : X + (n + 1) = (X + n) + 1 := by omega
    rw [harr, window_list_append (by omega), ih, List.range_succ, List.map_append,
      List.append_assoc]
    simp

theorem getD_drop (sub : List (List Nat)) (X j : Nat) :
    (sub.drop X).getD j [] = sub.getD (X + j) [] := by
  simp [List.getD, List.getElem?_drop]

theorem take_succ_getD {sub : List (List Nat)} {E : Nat} (h : E < sub.length) :
    sub.take (E + 1) = sub.take E ++ [sub.getD E []] := by
  rw [List.take_succ]
  simp [List.getD, List.getElem?_eq_getElem h]

theorem ABinv_append_batch {sub : List (List Nat)} {lo X' S : Nat} (k : Nat)
    (l : List Packet) (h : ABinv sub lo X' l) (hS : lo ≤ S)
    (hbound : ∀ j, j < k → S + j < X' ∧ X' ≤ S + j + send_window) :
    ABinv sub lo X' (l ++ (List.range k).map (fun j =>
      make_data (((S + j) % seqnum_space : Nat) : Int) (sub.getD (S + j) []))) := by
  induction k with
  | zero => simpa using h
  | succ n ih =>
    rw [List.range_succ, List.map_append, List.map_cons, List.map_nil,
      ← List.append_assoc]
    exact ABinv_append_data _
      (ih (fun j hj => hbound j (by omega)))
      (by omega) (hbound n (by omega)).2 (hbound n (by omega)).1

theorem ABinv_cons {sub : List (List Nat)} {lo X : Nat} {pkt : Packet}
    {rest : List Packet} :
    ABinv sub lo X (pkt :: rest) ↔
      (pkt.is_corrupt = true ∧ ABinv sub lo X rest) ∨
      (pkt = make_ack 0 ∧ ABinv sub lo X rest) ∨
      ∃ i, lo ≤ i ∧ i < X ∧
        pkt = make_data ((i % seqnum_space : Nat) : Int) (sub.getD i []) ∧
        ABinv sub (max lo (i + 1 - send_window)) X rest := Iff.rfl

theorem BAinv_cons {lo hi : Nat} {pkt : Packet} {rest : List Packet} :
    BAinv lo hi (pkt :: rest) ↔
      (pkt.is_corrupt = true ∧ BAinv lo hi rest) ∨
      ∃ a, lo ≤ a ∧ a ≤ hi ∧ pkt = make_ack ((a % seqnum_space : Nat) : Int) ∧
        BAinv a hi rest := Iff.rfl

/-! ### Preservation of the system invariant -/

theorem sysinv_init : SysInv initSys :=
  ⟨0, 0, 0, 0, by simp [initSys, initState, SysInv, window_list, ABinv, BAinv]⟩

theorem sysinv_dropAB {w : Sys} (i : Nat) (hw : SysInv w) :
    SysInv { w with chanAB := w.chanAB.eraseIdx i } := by
  obtain ⟨B, X, E, lo, hBE, hEX, hXB, hXlen, hloB, hElo, hbase, hnext, hbuf, hqueue,
    hqfull, htimer, hexp, hlast, hclosed, hbB, hbN, hbBuf, hbQ, hbT, hbC, hbE, hbL,
    hdel, hdelA, hAB, hBA⟩ := hw
  exact ⟨B, X, E, lo, hBE, hEX, hXB, hXlen, hloB, hElo, hbase, hnext, hbuf, hqueue,
    hqfull, htimer, hexp, hlast, hclosed, hbB, hbN, hbBuf, hbQ, hbT, hbC, hbE, hbL,
    hdel, hdelA, ABinv_eraseIdx _ i hAB, hBA⟩

theorem sysinv_dropBA {w : Sys} (i : Nat) (hw : SysInv w) :
    SysInv { w with chanBA := w.chanBA.eraseIdx i } := by
  obtain ⟨B, X, E, lo, hBE, hEX, hXB, hXlen, hloB, hElo, hbase, hnext, hbuf, hqueue,
    hqfull, htimer, hexp, hlast, hclosed, hbB, hbN, hbBuf, hbQ, hbT, hbC, hbE, hbL,
    hdel, hdelA, hAB, hBA⟩ := hw
  exact ⟨B, X, E, lo, hBE, hEX, hXB, hXlen, hloB, hElo, hbase, hnext, hbuf, hqueue,
    hqfull, htimer, hexp, hlast, hclosed, hbB, hbN, hbBuf, hbQ, hbT, hbC, hbE, hbL,
    hdel, hdelA, hAB, BAinv_eraseIdx _ i hBA⟩

theorem sysinv_corruptAB {w : Sys} (i : Nat) (q : Packet) (hq : q.is_corrupt = true)
    (hw : SysInv w) : SysInv { w with chanAB := w.chanAB.set i q } := by
  obtain ⟨B, X, E, lo, hBE, hEX, hXB, hXlen, hloB, hElo, hbase, hnext, hbuf, hqueue,
    hqfull, htimer, hexp, hlast, hclosed, hbB, hbN, hbBuf, hbQ, hbT, hbC, hbE, hbL,
    hdel, hdelA, hAB, hBA⟩ := hw
  exact ⟨B, X, E, lo, hBE, hEX, hXB, hXlen, hloB, hElo, hbase, hnext, hbuf, hqueue,
    hqfull, htimer, hexp, hlast, hclosed, hbB, hbN, hbBuf, hbQ, hbT, hbC, hbE, hbL,
    hdel, hdelA, ABinv_set_corrupt _ i q hq hAB, hBA⟩

theorem sysinv_corruptBA {w : Sys} (i : Nat) (q : Packet) (hq : q.is_corrupt = true)
    (hw : SysInv w) : SysInv { w with chanBA := w.chanBA.set i q } := by
  obtain ⟨B, X, E, lo, hBE, hEX, hXB, hXlen, hloB, hElo, hbase, hnext, hbuf, hqueue,
    hqfull, htimer, hexp, hlast, hclosed, hbB, hbN, hbBuf, hbQ, hbT, hbC, hbE, hbL,
    hdel, hdelA, hAB, hBA⟩ := hw
  exact ⟨B, X, E, lo, hBE, hEX, hXB, hXlen, hloB, hElo, hbase, hnext, hbuf, hqueue,
    hqfull, htimer, hexp, hlast, hclosed, hbB, hbN, hbBuf, hbQ, hbT, hbC, hbE, hbL,
    hdel, hdelA, hAB, BAinv_set_corrupt _ i q hq hBA⟩

theorem sysinv_timeoutB {w : Sys} {b' : TState} {out : List Packet}
    (htm : on_timeout w.bob = .ok (b', out)) (hw : SysInv w) :
    SysInv { w with bob := b', chanBA := w.chanBA ++ out } := by
  obtain ⟨B, X, E, lo, hBE, hEX, hXB, hXlen, hloB, hElo, hbase, hnext, hbuf, hqueue,
    hqfull, htimer, hexp, hlast, hclosed, hbB, hbN, hbBuf, hbQ, hbT, hbC, hbE, hbL,
    hdel, hdelA, hAB, hBA⟩ := hw
  rw [on_timeout_noop (Or.inr hbT)] at htm
  simp only [Except.ok.injEq, Prod.mk.injEq] at htm
  obtain ⟨hb, ho⟩ := htm
  subst hb; subst ho
  exact ⟨B, X, E, lo, hBE, hEX, hXB, hXlen, hloB, hElo, hbase, hnext, hbuf, hqueue,
    hqfull, htimer, hexp, hlast, hclosed, hbB, hbN, hbBuf, hbQ, hbT, hbC, hbE, hbL,
    hdel, hdelA, hAB, by rw [List.append_nil]; exact hBA⟩

theorem sysinv_timeoutA {w : Sys} {a' : TState} {out : List Packet}
    (htm : on_timeout w.alice = .ok (a', out)) (hw : SysInv w) :
    SysInv { w with alice := a', chanAB := w.chanAB ++ out } := by
  obtain ⟨B, X, E, lo, hBE, hEX, hXB, hXlen, hloB, hElo, hbase, hnext, hbuf, hqueue,
    hqfull, htimer, hexp, hlast, hclosed, hbB, hbN, hbBuf, hbQ, hbT, hbC, hbE, hbL,
    hdel, hdelA, hAB, hBA⟩ := hw
  have hsA : Shape w.alice B X :=
    { closed_eq := hclosed, base_eq := hbase, next_eq := hnext,
      keys_eq := by rw [hbuf, window_list_map_fst], le := le_trans hBE hEX,
      window := hXB, timer_eq := htimer }
  by_cases hBX : B < X
  · rw [on_timeout_spec hsA (by rw [htimer]; exact decide_eq_true hBX)] at htm
    simp only [Except.ok.injEq, Prod.mk.injEq] at htm
    obtain ⟨hb, ho⟩ := htm
    subst hb; subst ho
    refine ⟨B, X, E, lo, hBE, hEX, hXB, hXlen, hloB, hElo, hbase, hnext, hbuf, hqueue,
      hqfull, ?_, hexp, hlast, hclosed, hbB, hbN, hbBuf, hbQ, hbT, hbC, hbE, hbL,
      hdel, hdelA, ?_, hBA⟩
    · exact (decide_eq_true hBX).symm
    · rw [hbuf]
      simp only [window_list, List.map_map]
      have h5 : send_window = 5 := rfl
      exact ABinv_append_batch (X - B) _ hAB hloB
        (fun j hj => ⟨by omega, by omega⟩)
  · rw [on_timeout_noop (Or.inr (by rw [htimer]; exact decide_eq_false hBX))] at htm
    simp only [Except.ok.injEq, Prod.mk.injEq] at htm
    obtain ⟨hb, ho⟩ := htm
    subst hb; subst ho
    exact ⟨B, X, E, lo, hBE, hEX, hXB, hXlen, hloB, hElo, hbase, hnext, hbuf, hqueue,
      hqfull, htimer, hexp, hlast, hclosed, hbB, hbN, hbBuf, hbQ, hbT, hbC, hbE, hbL,
      hdel, hdelA, by rw [List.append_nil]; exact hAB, hBA⟩

theorem sysinv_submit {w : Sys} {p : List Nat} {a' : TState} {out : List Packet}
    (happ : from_app w.alice p = .ok (a', out)) (hw : SysInv w) :
    SysInv { w with alice := a', chanAB := w.chanAB ++ out,
                    submitted := w.submitted ++ [p] } := by
  obtain ⟨B, X, E, lo, hBE, hEX, hXB, hXlen, hloB, hElo, hbase, hnext, hbuf, hqueue,
    hqfull, htimer, hexp, hlast, hclosed, hbB, hbN, hbBuf, hbQ, hbT, hbC, hbE, hbL,
    hdel, hdelA, hAB, hBA⟩ := hw
  have hsA : Shape w.alice B X :=
    { closed_eq := hclosed, base_eq := hbase, next_eq := hnext,
      keys_eq := by rw [hbuf, window_list_map_fst], le := le_trans hBE hEX,
      window := hXB, timer_eq := htimer }
  have h5 : send_window = 5 := rfl
  have hElen : E ≤ w.submitted.length := le_trans hEX hXlen
  by_cases hopen : X < B + send_window
  · -- window open: the payload is sent immediately and appended at ghost index X
    have hqe : w.submitted.drop X = [] := by
      by_contra hne
      have := hqfull hne
      omega
    have hXeq : X = w.submitted.length := by
      have := List.drop_eq_nil_iff.mp hqe
      omega
    rw [from_app_send_spec p hsA hopen] at happ
    simp only [Except.ok.injEq, Prod.mk.injEq] at happ
    obtain ⟨ha, ho⟩ := happ
    subst ha; subst ho
    have hgetD : (w.submitted ++ [p]).getD X [] = p := by
      subst hXeq
      simp [List.getD]
    refine ⟨B, X + 1, E, lo, by omega, by omega, by omega, by simp; omega, hloB,
      hElo, hbase, rfl, ?_, ?_, ?_, (decide_eq_true (by omega)).symm, hexp, hlast,
      hclosed, hbB, hbN, hbBuf, hbQ, hbT, hbC, hbE, hbL, ?_, hdelA, ?_, hBA⟩
    · show w.alice.send_buffer ++ _ = window_list (w.submitted ++ [p]) B (X + 1)
      rw [window_list_append (le_trans hBE hEX), window_list_stable p hXlen, hgetD, hbuf]
    · show w.alice.app_queue = (w.submitted ++ [p]).drop (X + 1)
      rw [hqueue, hqe]
      symm
      rw [List.drop_eq_nil_iff]
      simp
      omega
    · intro hne
      exact absurd (by rw [List.drop_eq_nil_iff]; simp; omega) hne
    · show w.delivered = (w.submitted ++ [p]).take E
      rw [hdel, List.take_append_of_le_length hElen]
    · show ABinv (w.submitted ++ [p]) lo (X + 1)
        (w.chanAB ++ [make_data ((X % seqnum_space : Nat) : Int) p])
      have hAB' : ABinv (w.submitted ++ [p]) lo (X + 1) w.chanAB :=
        ABinv_X_mono _ (by omega) (ABinv_sub_extend p hXlen _ hAB)
      have := ABinv_append_data w.chanAB hAB' (by omega : lo ≤ X)
        (by omega) (by omega)
      rw [hgetD] at this
      exact this
  · -- window full: the payload is queued
    have hX5 : X = B + send_window := by omega
    rw [from_app_queue_spec w.alice p hclosed
      (Or.inl (by rw [hbuf, window_list_length]; omega))] at happ
    simp only [Except.ok.injEq, Prod.mk.injEq] at happ
    obtain ⟨ha, ho⟩ := happ
    subst ha; subst ho
    refine ⟨B, X, E, lo, hBE, hEX, hXB, by simp; omega, hloB, hElo, hbase, hnext,
      ?_, ?_, fun _ => hX5, htimer, hexp, hlast, hclosed, hbB, hbN, hbBuf, hbQ,
      hbT, hbC, hbE, hbL, ?_, hdelA, ?_, hBA⟩
    · show w.alice.send_buffer = window_list (w.submitted ++ [p]) B X
      rw [hbuf, window_list_stable p hXlen]
    · show w.alice.app_queue ++ [p] = (w.submitted ++ [p]).drop X
      rw [hqueue, List.drop_append_of_le_length hXlen]
    · show w.delivered = (w.submitted ++ [p]).take E
      rw [hdel, List.take_append_of_le_length hElen]
    · show ABinv (w.submitted ++ [p]) lo X (w.chanAB ++ [])
      rw [List.append_nil]
      exact ABinv_sub_extend p hXlen _ hAB

theorem sysinv_deliverAB {w : Sys} {pkt : Packet} {rest : List Packet} {b' : TState}
    {out : List Packet} {dels : List (List Nat)}
    (hch : w.chanAB = pkt :: rest)
    (hnet : from_network w.bob pkt = .ok (b', out, dels)) (hw : SysInv w) :
    SysInv { w with bob := b', chanAB := rest, chanBA := w.chanBA ++ out,
                    delivered := w.delivered ++ dels } := by
  obtain ⟨B, X, E, lo, hBE, hEX, hXB, hXlen, hloB, hElo, hbase, hnext, hbuf, hqueue,
    hqfull, htimer, hexp, hlast, hclosed, hbB, hbN, hbBuf, hbQ, hbT, hbC, hbE, hbL,
    hdel, hdelA, hAB, hBA⟩ := hw
  have h5 : send_window = 5 := rfl
  have h10 : seqnum_space = 10 := rfl
  rw [hch, ABinv_cons] at hAB
  rcases hAB with ⟨hc, hrest⟩ | ⟨hpkt, hrest⟩ | ⟨i, hi1, hi2, hpkt, hrest⟩
  · -- a detectably-corrupt segment: Bob counts it (and re-ACKs if it looks like DATA)
    by_cases hak : 0 ≤ pkt.acknum
    · rw [from_network_ack_corrupt hbC hak hc] at hnet
      simp only [Except.ok.injEq, Prod.mk.injEq] at hnet
      obtain ⟨hb, ho, hd⟩ := hnet
      subst hb; subst ho; subst hd
      exact ⟨B, X, E, lo, hBE, hEX, hXB, hXlen, hloB, hElo, hbase, hnext, hbuf,
        hqueue, hqfull, htimer, hexp, hlast, hclosed, hbB, hbN, hbBuf, hbQ, hbT,
        hbC, hbE, hbL,
        by show w.delivered ++ [] = _; rw [List.append_nil]; exact hdel, hdelA, hrest,
        by rw [List.append_nil]; exact hBA⟩
    · rw [from_network_data_corrupt hbC (by omega) hc] at hnet
      simp only [Except.ok.injEq, Prod.mk.injEq] at hnet
      obtain ⟨hb, ho, hd⟩ := hnet
      subst hb; subst ho; subst hd
      refine ⟨B, X, E, lo, hBE, hEX, hXB, hXlen, hloB, hElo, hbase, hnext, hbuf,
        hqueue, hqfull, htimer, hexp, hlast, hclosed, hbB, hbN, hbBuf, hbQ, hbT,
        hbC, hbE, ?_, by rw [List.append_nil]; exact hdel, hdelA, hrest, ?_⟩
      · show w.bob.expected_seqnum = E % seqnum_space
        exact hbE
      · rw [hbE]
        exact BAinv_append_ack _ hBA hBE (le_refl E)
  · -- Alice's re-ACK of her idle receive cursor: a duplicate ACK at Bob
    have hak : (0 : Int) ≤ pkt.acknum := by rw [hpkt, make_ack_acknum]
    have hcor : pkt.is_corrupt = false := by rw [hpkt]; exact make_ack_not_corrupt 0
    have hdup : ack_advances w.bob ((pkt.acknum % (seqnum_space : Int)).toNat) = false := by
      rw [hpkt, make_ack_acknum]
      have hz : (((0 : Int) % (seqnum_space : Int)).toNat) = 0 := by
        rw [h10]; rfl
      rw [hz]
      simp [ack_advances, hbB]
    rw [from_network_ack_dup hbC hak hcor hdup] at hnet
    simp only [Except.ok.injEq, Prod.mk.injEq] at hnet
    obtain ⟨hb, ho, hd⟩ := hnet
    subst hb; subst ho; subst hd
    exact ⟨B, X, E, lo, hBE, hEX, hXB, hXlen, hloB, hElo, hbase, hnext, hbuf,
      hqueue, hqfull, htimer, hexp, hlast, hclosed, hbB, hbN, hbBuf, hbQ, hbT,
      hbC, hbE, hbL,
      by show w.delivered ++ [] = _; rw [List.append_nil]; exact hdel, hdelA, hrest,
      by rw [List.append_nil]; exact hBA⟩
  · -- a genuine DATA segment at ghost index i < X
    have hcor : pkt.is_corrupt = false := by rw [hpkt]; exact make_data_not_corrupt _ _
    have hdneg : pkt.acknum < 0 := by rw [hpkt, make_data_acknum]; omega
    have hseq : ((pkt.seqnum % (seqnum_space : Int)).toNat) = i % seqnum_space := by
      rw [hpkt, make_data_seqnum, h10]
      omega
    by_cases heq : i % seqnum_space = E % seqnum_space
    · -- in-order: i aliases to exactly E inside the receive window
      have hiE : i = E := by
        rw [h10] at heq
        omega
      rw [hiE] at hi1 hi2 hpkt hrest
      rw [from_network_data_deliver hbC hdneg hcor (by rw [hseq, hbE, heq])] at hnet
      simp only [Except.ok.injEq, Prod.mk.injEq] at hnet
      obtain ⟨hb, ho, hd⟩ := hnet
      subst hb; subst ho; subst hd
      have hshift : mod_seqnum (w.bob.expected_seqnum + 1) = (E + 1) % seqnum_space := by
        rw [hbE, mod_seqnum_shift]
      refine ⟨B, X, E + 1, max lo (E + 1 - send_window), by omega, by omega, hXB,
        hXlen, by omega, by omega, hbase, hnext, hbuf, hqueue, hqfull, htimer,
        hexp, hlast, hclosed, hbB, hbN, hbBuf, hbQ, hbT, hbC, ?_, ?_, ?_, hdelA,
        hrest, ?_⟩
      · show mod_seqnum (w.bob.expected_seqnum + 1) = (E + 1) % seqnum_space
        exact hshift
      · show mod_seqnum (w.bob.expected_seqnum + 1) = (E + 1) % seqnum_space
        exact hshift
      · show w.delivered ++ [pkt.data] = (w.submitted).take (E + 1)
        rw [hdel, hpkt, make_data_data, take_succ_getD (by omega)]
      · show BAinv B (E + 1)
          (w.chanBA ++ [make_ack ((mod_seqnum (w.bob.expected_seqnum + 1) : Nat) : Int)])
        rw [hshift]
        exact BAinv_append_ack _ (BAinv_hi_mono _ (by omega) hBA) (by omega) (le_refl _)
    · -- out of order: Bob re-ACKs his last cumulative ACK
      rw [from_network_data_ooo hbC hdneg hcor (by rw [hseq, hbE]; exact heq)] at hnet
      simp only [Except.ok.injEq, Prod.mk.injEq] at hnet
      obtain ⟨hb, ho, hd⟩ := hnet
      subst hb; subst ho; subst hd
      refine ⟨B, X, E, max lo (i + 1 - send_window), hBE, hEX, hXB, hXlen, by omega,
        by omega, hbase, hnext, hbuf, hqueue, hqfull, htimer, hexp, hlast, hclosed,
        hbB, hbN, hbBuf, hbQ, hbT, hbC, hbE, hbL,
        by rw [List.append_nil]; exact hdel, hdelA, hrest, ?_⟩
      show BAinv B E (w.chanBA ++ [make_ack ((w.bob.last_ack_send : Nat) : Int)])
      rw [hbL]
      exact BAinv_append_ack _ hBA hBE (le_refl E)

theorem sysinv_deliverBA {w : Sys} {pkt : Packet} {rest : List Packet} {a' : TState}
    {out : List Packet} {dels : List (List Nat)}
    (hch : w.chanBA = pkt :: rest)
    (hnet : from_network w.alice pkt = .ok (a', out, dels)) (hw : SysInv w) :
    SysInv { w with alice := a', chanBA := rest, chanAB := w.chanAB ++ out,
                    deliveredA := w.deliveredA ++ dels } := by
  obtain ⟨B, X, E, lo, hBE, hEX, hXB, hXlen, hloB, hElo, hbase, hnext, hbuf, hqueue,
    hqfull, htimer, hexp, hlast, hclosed, hbB, hbN, hbBuf, hbQ, hbT, hbC, hbE, hbL,
    hdel, hdelA, hAB, hBA⟩ := hw
  have hsA : Shape w.alice B X :=
    { closed_eq := hclosed, base_eq := hbase, next_eq := hnext,
      keys_eq := by rw [hbuf, window_list_map_fst], le := le_trans hBE hEX,
      window := hXB, timer_eq := htimer }
  have h5 : send_window = 5 := rfl
  have h10 : seqnum_space = 10 := rfl
  rw [hch, BAinv_cons] at hBA
  rcases hBA with ⟨hc, hrest⟩ | ⟨a, ha1, ha2, hpkt, hrest⟩
  · -- a detectably-corrupt segment at Alice: counted, possibly re-ACKed
    by_cases hak : 0 ≤ pkt.acknum
    · rw [from_network_ack_corrupt hclosed hak hc] at hnet
      simp only [Except.ok.injEq, Prod.mk.injEq] at hnet
      obtain ⟨hb, ho, hd⟩ := hnet
      subst hb; subst ho; subst hd
      exact ⟨B, X, E, lo, hBE, hEX, hXB, hXlen, hloB, hElo, hbase, hnext, hbuf,
        hqueue, hqfull, htimer, hexp, hlast, hclosed, hbB, hbN, hbBuf, hbQ, hbT,
        hbC, hbE, hbL, hdel,
        by show w.deliveredA ++ [] = []; rw [List.append_nil]; exact hdelA,
        by rw [List.append_nil]; exact hAB, hrest⟩
    · rw [from_network_data_corrupt hclosed (by omega) hc] at hnet
      simp only [Except.ok.injEq, Prod.mk.injEq] at hnet
      obtain ⟨hb, ho, hd⟩ := hnet
      subst hb; subst ho; subst hd
      refine ⟨B, X, E, lo, hBE, hEX, hXB, hXlen, hloB, hElo, hbase, hnext, hbuf,
        hqueue, hqfull, htimer, hexp, ?_, hclosed, hbB, hbN, hbBuf, hbQ, hbT,
        hbC, hbE, hbL, hdel,
        by show w.deliveredA ++ [] = []; rw [List.append_nil]; exact hdelA, ?_, hrest⟩
      · show w.alice.expected_seqnum = 0
        exact hexp
      · show ABinv w.submitted lo X
          (w.chanAB ++ [make_ack ((w.alice.expected_seqnum : Nat) : Int)])
        rw [hexp]
        exact ABinv_append_ack0 _ hAB
  · -- a genuine cumulative ACK with ghost value a, B ≤ a ≤ E
    have hcor : pkt.is_corrupt = false := by rw [hpkt]; exact make_ack_not_corrupt _
    have hak : (0 : Int) ≤ pkt.acknum := by
      rw [hpkt, make_ack_acknum]
      exact Int.natCast_nonneg _
    have htoa : ((pkt.acknum % (seqnum_space : Int)).toNat) = a % seqnum_space := by
      rw [hpkt, make_ack_acknum, h10]
      omega
    by_cases hadv : B < a
    · -- a window-advancing ACK: slide the base to a and drain the queue
      rw [from_network_ack_advance_le hsA hak hcor hadv (le_trans ha2 hEX) htoa] at hnet
      simp only [Except.ok.injEq, Prod.mk.injEq] at hnet
      obtain ⟨hb, ho, hd⟩ := hnet
      subst hb; subst ho; subst hd
      have hqlen : w.alice.app_queue.length = w.submitted.length - X := by
        rw [hqueue, List.length_drop]
      have hkb : min w.alice.app_queue.length (a + send_window - X) ≤
          a + send_window - X := min_le_right _ _
      have hk5 : min w.alice.app_queue.length (a + send_window - X) ≤ 5 := by omega
      have hklen : min w.alice.app_queue.length (a + send_window - X) ≤
          w.submitted.length - X := by omega
      refine ⟨a, X + min w.alice.app_queue.length (a + send_window - X), E, lo,
        ha2, by omega, by omega,
        by show X + min w.alice.app_queue.length (a + send_window - X) ≤
             w.submitted.length; omega,
        by omega, hElo, rfl, rfl, ?_, ?_, ?_,
        rfl, hexp, hlast, hclosed, hbB, hbN, hbBuf, hbQ, hbT, hbC, hbE, hbL, hdel,
        by show w.deliveredA ++ [] = []; rw [List.append_nil]; exact hdelA, ?_, hrest⟩
      · -- the new buffer is exactly the slid-and-refilled window
        show w.alice.send_buffer.drop (a - B) ++ _ =
          window_list w.submitted a (X + min w.alice.app_queue.length (a + send_window - X))
        rw [window_list_append_many _ (le_trans ha2 hEX), hbuf,
          window_list_drop (a - B) (by omega)]
        have hab : B + (a - B) = a := by omega
        rw [hab]
        congr 1
        apply List.map_congr_left
        intro j hj
        rw [hqueue, getD_drop]
      · -- the new queue is the submitted suffix past the refilled window
        show w.alice.app_queue.drop _ =
          w.submitted.drop (X + min w.alice.app_queue.length (a + send_window - X))
        rw [hqueue, List.drop_drop]
      · -- a non-empty residual queue means the refilled window is full again
        show w.submitted.drop (X + min w.alice.app_queue.length (a + send_window - X))
            ≠ [] → X + min w.alice.app_queue.length (a + send_window - X) =
              a + send_window
        intro hne
        have hlt : X + min w.alice.app_queue.length (a + send_window - X) <
            w.submitted.length := by
          by_contra hge
          exact hne (by rw [List.drop_eq_nil_iff]; omega)
        omega
      · -- the drained DATA segments extend the channel invariant
        show ABinv w.submitted lo
          (X + min w.alice.app_queue.length (a + send_window - X)) (w.chanAB ++ _)
        have hAB' : ABinv w.submitted lo
            (X + min w.alice.app_queue.length (a + send_window - X)) w.chanAB :=
          ABinv_X_mono _ (by omega) hAB
        have hmap : (List.range (min w.alice.app_queue.length (a + send_window - X))).map
            (fun j => make_data (((X + j) % seqnum_space : Nat) : Int)
              (w.alice.app_queue.getD j [])) =
            (List.range (min w.alice.app_queue.length (a + send_window - X))).map
            (fun j => make_data (((X + j) % seqnum_space : Nat) : Int)
              (w.submitted.getD (X + j) [])) := by
          apply List.map_congr_left
          intro j hj
          rw [hqueue, getD_drop]
        rw [hmap]
        exact ABinv_append_batch _ _ hAB' (by omega)
          (fun j hj => ⟨by omega, by omega⟩)
    · -- a = base: a duplicate ACK
      have haB : a = B := by omega
      have hdup : ack_advances w.alice ((pkt.acknum % (seqnum_space : Int)).toNat)
          = false := by
        rw [htoa, ack_advances_ghost hbase ha1 (by omega)]
        simp only [decide_eq_false_iff_not]
        omega
      rw [from_network_ack_dup hclosed hak hcor hdup] at hnet
      simp only [Except.ok.injEq, Prod.mk.injEq] at hnet
      obtain ⟨hb, ho, hd⟩ := hnet
      subst hb; subst ho; subst hd
      refine ⟨B, X, E, lo, hBE, hEX, hXB, hXlen, hloB, hElo, hbase, hnext, hbuf,
        hqueue, hqfull, htimer, hexp, hlast, hclosed, hbB, hbN, hbBuf, hbQ, hbT,
        hbC, hbE, hbL, hdel,
        by show w.deliveredA ++ [] = []; rw [List.append_nil]; exact hdelA,
        by rw [List.append_nil]; exact hAB, ?_⟩
      rw [← haB]
      exact hrest

/-- Every `Step` with detectable-only corruption preserves the system
invariant. -/
theorem sysinv_step {w w' : Sys} (h : Step true w w') (hw : SysInv w) : SysInv w' := by
  cases h with
  | submit happ => exact sysinv_submit happ hw
  | deliverAB hch hnet => exact sysinv_deliverAB hch hnet hw
  | deliverBA hch hnet => exact sysinv_deliverBA hch hnet hw
  | timeoutA htm => exact sysinv_timeoutA htm hw
  | timeoutB htm => exact sysinv_timeoutB htm hw
  | dropAB i hi => exact sysinv_dropAB i hw
  | dropBA i hi => exact sysinv_dropBA i hw
  | corruptAB i q hi hq => exact sysinv_corruptAB i q (hq rfl) hw
  | corruptBA i q hi hq => exact sysinv_corruptBA i q (hq rfl) hw

/-- The system invariant holds in every state reachable from the
initial system under detectable-only corruption. -/
theorem sysinv_reaches {w : Sys} (h : Reaches true initSys w) : SysInv w := by
  induction h with
  | refl => exact sysinv_init
  | tail hs hstep ih => exact sysinv_step hstep ih

/-- C1 (counterexample): end-to-end delivery as claimed FAILS under
the claimed channel model, which allows arbitrary corruption.  In a
complete finite execution — Alice submits `[1,0,0,0]`, the channel
corrupts the segment's payload to `[0,0,1,0]` without changing its
(bugged, plain mod-2^16) checksum, Bob accepts it as valid in-order
DATA, and his ACK drains Alice's window — the system ends fully
quiescent with the receiving application handed `[[0,0,1,0]]` while
the sender submitted `[[1,0,0,0]]`: no loss, no reordering, every
segment delivered, and yet the delivered sequence differs from the
submitted one. -/
theorem C1_counterexample :
    Reaches false initSys cexW ∧
    cexW.submitted = [[1, 0, 0, 0]] ∧
    cexW.delivered = [[0, 0, 1, 0]] ∧
    cexW.delivered ≠ cexW.submitted ∧
    cexW.chanAB = [] ∧ cexW.chanBA = [] ∧
    cexW.alice.send_buffer = [] ∧ cexW.alice.app_queue = [] := by
  refine ⟨?_, rfl, rfl, by decide, rfl, rfl, rfl, rfl⟩
  have s1 : Step false initSys cexW1 :=
    @Step.submit false initSys [1, 0, 0, 0] cexW1.alice
      [make_data 0 [1, 0, 0, 0]] (by rfl)
  have s2 : Step false cexW1 cexW2 :=
    @Step.corruptAB false cexW1 0 cexPkt (by decide) (fun h => nomatch h)
  have s3 : Step false cexW2 cexW3 :=
    @Step.deliverAB false cexW2 cexPkt [] cexW3.bob [make_ack 1]
      [[0, 0, 1, 0]] rfl (by rfl)
  have s4 : Step false cexW3 cexW :=
    @Step.deliverBA false cexW3 (make_ack 1) [] cexW.alice [] [] rfl (by rfl)
  exact Relation.ReflTransGen.head s1 (Relation.ReflTransGen.head s2
    (Relation.ReflTransGen.head s3 (Relation.ReflTransGen.head s4
      Relation.ReflTransGen.refl)))

/-- C1 (amended): end-to-end in-order exactly-once delivery holds once
corruption is restricted to what the checksum can detect.  In every
system state reachable from the initial two-stack system by submits,
FIFO deliveries, timeouts, drops and detectable corruptions, the
payload sequence handed to the receiving application is a prefix of
the submitted sequence (no gaps, duplicates, reordering or
fabrication), and whenever the sender is quiescent (empty in-flight
buffer and empty pending queue — the state every segment-eventually-
delivered execution drives the system to) the delivered sequence
equals the submitted one. -/
theorem C1_amended {w : Sys} (h : Reaches true initSys w) :
    w.delivered <+: w.submitted ∧
    (w.alice.send_buffer = [] → w.alice.app_queue = [] →
      w.delivered = w.submitted) := by
  obtain ⟨B, X, E, lo, hBE, hEX, hXB, hXlen, hloB, hElo, hbase, hnext, hbuf, hqueue,
    hqfull, htimer, hexp, hlast, hclosed, hbB, hbN, hbBuf, hbQ, hbT, hbC, hbE, hbL,
    hdel, hdelA, hAB, hBA⟩ := sysinv_reaches h
  constructor
  · rw [hdel]
    exact List.take_prefix E w.submitted
  · intro hbufe hqe
    rw [hbuf] at hbufe
    rw [hqueue] at hqe
    have hXB0 : X - B = 0 := window_list_nil_iff.mp hbufe
    have hlen : w.submitted.length ≤ X := List.drop_eq_nil_iff.mp hqe
    have hEeq : E = w.submitted.length := by omega
    rw [hdel, hEeq, List.take_length]

/-- Closed witness for the amended C1 theorem: a complete clean
three-step execution (submit `[65]`, deliver the DATA segment, deliver
the ACK), whose final state is concretely quiescent with
`delivered = submitted = [[65]]`. -/
theorem C1_amended_witness :
    okW.delivered <+: okW.submitted ∧
    (okW.alice.send_buffer = [] → okW.alice.app_queue = [] →
      okW.delivered = okW.submitted) := by
  apply C1_amended
  have s1 : Step true initSys okW1 :=
    @Step.submit true initSys [65] okW1.alice [make_data 0 [65]] (by rfl)
  have s2 : Step true okW1 okW2 :=
    @Step.deliverAB true okW1 (make_data 0 [65]) [] okW2.bob [make_ack 1]
      [[65]] rfl (by rfl)
  have s3 : Step true okW2 okW :=
    @Step.deliverBA true okW2 (make_ack 1) [] okW.alice [] [] rfl (by rfl)
  exact Relation.ReflTransGen.head s1 (Relation.ReflTransGen.head s2
    (Relation.ReflTransGen.head s3 Relation.ReflTransGen.refl))

end GBN
